import Mathlib

/-!
A shallow embedding of `service/main.go` of ip-echo-service.

Go strings are modelled as Lean strings (sequences of Unicode code points, i.e.
well-formed UTF-8 text).  Library routines of the Go standard library that the
service calls (`strings`, `net`, `path`, `path/filepath`, `net/http`) are
embedded as executable functions that compute what the Go routine computes.
-/

namespace IpEcho

/-! ## Package `strings` -/

namespace strings

/-- Pieces of a character sequence between occurrences of the separator `sep`
(the worker behind `Split` for a one-character separator). -/
def splitChars (sep : Char) : List Char → List (List Char)
  | [] => [[]]
  | c :: cs =>
    if c = sep then [] :: splitChars sep cs
    else
      match splitChars sep cs with
      | [] => [[c]]
      | p :: ps => (c :: p) :: ps

/-- Go `strings.Split(s, sep)` for a one-character separator: every call in the
service passes `","`. -/
def Split (s : String) (sep : Char) : List String :=
  (splitChars sep s.data).map String.mk

/-- Go `unicode.IsSpace`: the code points with the Unicode White_Space property. -/
def IsSpace (c : Char) : Bool :=
  let n := c.toNat
  (0x09 ≤ n && n ≤ 0x0D) || n = 0x20 || n = 0x85 || n = 0xA0 || n = 0x1680 ||
  (0x2000 ≤ n && n ≤ 0x200A) || n = 0x2028 || n = 0x2029 || n = 0x202F ||
  n = 0x205F || n = 0x3000

/-- Go `strings.TrimSpace`: all leading and trailing white space removed. -/
def TrimSpace (s : String) : String :=
  ⟨((s.data.dropWhile IsSpace).reverse.dropWhile IsSpace).reverse⟩

/-- Go `strings.HasPrefix`. -/
def HasPrefix (s pre : String) : Bool :=
  pre.data.isPrefixOf s.data

/-- Go `strings.TrimPrefix`: `s` without the leading `pre`, or `s` itself. -/
def TrimPrefix (s pre : String) : String :=
  if HasPrefix s pre then ⟨s.data.drop pre.data.length⟩ else s

/-- Does the character sequence `sub` occur inside `s`? -/
def containsChars (sub : List Char) : List Char → Bool
  | [] => sub.isPrefixOf []
  | c :: cs => sub.isPrefixOf (c :: cs) || containsChars sub cs

/-- Go `strings.Contains`. -/
def Contains (s sub : String) : Bool :=
  containsChars sub.data s.data

/-- Go `strings.Join`. -/
def Join (elems : List String) (sep : String) : String :=
  match elems with
  | [] => ""
  | e :: es => es.foldl (fun acc x => acc ++ sep ++ x) e

end strings

/-! ## Package `net` -/

namespace net

/-- Go `bytealg.IndexByteString`: position of the first `c`, if any. -/
def IndexByte : List Char → Char → Option Nat
  | [], _ => none
  | x :: xs, c => if x = c then some 0 else (IndexByte xs c).map (· + 1)

/-- Go `bytealg.LastIndexByteString`: position of the last `c`, if any. -/
def LastIndexByte : List Char → Char → Option Nat
  | [], _ => none
  | x :: xs, c =>
    match LastIndexByte xs c with
    | some i => some (i + 1)
    | none => if x = c then some 0 else none

/-- Go `net.SplitHostPort`: splits `host:port`, `host%zone:port`, `[host]:port`
or `[host%zone]:port` into host and port; the error carries the reason. -/
def SplitHostPort (hostport : String) : Except String (String × String) :=
  let s := hostport.data
  -- The port starts after the last colon.
  match LastIndexByte s ':' with
  | none => .error "missing port in address"
  | some i =>
    if s.head? = some '[' then
      -- Expect the first ']' just before the last ':'.
      match IndexByte s ']' with
      | none => .error "missing ']' in address"
      | some fin =>
        if fin + 1 = s.length then .error "missing port in address"
        else if fin + 1 = i then
          let host := (s.take fin).drop 1
          if (IndexByte (s.drop 1) '[').isSome then .error "unexpected '[' in address"
          else if (IndexByte (s.drop (fin + 1)) ']').isSome then
            .error "unexpected ']' in address"
          else .ok (⟨host⟩, ⟨s.drop (i + 1)⟩)
        else if s.get? (fin + 1) = some ':' then .error "too many colons in address"
        else .error "missing port in address"
    else
      let host := s.take i
      if (IndexByte host ':').isSome then .error "too many colons in address"
      else if (IndexByte s '[').isSome then .error "unexpected '[' in address"
      else if (IndexByte s ']').isSome then .error "unexpected ']' in address"
      else .ok (⟨host⟩, ⟨s.drop (i + 1)⟩)

end net

/-! ## Package `net/http`: headers and requests -/

namespace http

/-- Go `http.Header` (`map[string][]string`): the values stored under each key;
a key that is not in the map has no values. -/
abbrev Header := String → List String

/-- The empty header map. -/
def Header.empty : Header := fun _ => []

/-- Go `Header.Get` for a key in canonical form (`"X-Forwarded-For"` is): the
first value stored under the key, `""` when there is none. -/
def Header.Get (h : Header) (key : String) : String :=
  match h key with
  | [] => ""
  | v :: _ => v

/-- Go `Header.Set` for a key in canonical form: the key now holds the single
value `value`. -/
def Header.Set (h : Header) (key value : String) : Header :=
  fun k => if k = key then [value] else h k

/-- The fields of `http.Request` that the service reads. -/
structure Request where
  Header : Header
  RemoteAddr : String
  Path : String

end http

open http

/-! ## `getAddress` -/

/-- `getAddress` of `main.go`: the first entry of `X-Forwarded-For`, trimmed,
when the header is set; otherwise the host of `RemoteAddr`, or `RemoteAddr`
itself when it has no port. -/
def getAddress (r : Request) : String :=
  -- Trust X-Forwarded-For if behind a proxy
  let xff := r.Header.Get "X-Forwarded-For"
  if xff ≠ "" then
    let parts := strings.Split xff ','
    strings.TrimSpace (parts.headD "")
  else
    match net.SplitHostPort r.RemoteAddr with
    | .error _ => r.RemoteAddr
    | .ok (ip, _) => ip

/-- The reference definition of the address resolution, as the specification
words it: text before the first comma of the forwarding header, trimmed; else
the host of the peer address; else the peer address. -/
def getAddressRef (r : Request) : String :=
  match r.Header "X-Forwarded-For" with
  | v :: _ =>
    if v = "" then
      match net.SplitHostPort r.RemoteAddr with
      | .ok hp => hp.1
      | .error _ => r.RemoteAddr
    else strings.TrimSpace ⟨v.data.takeWhile (fun c => c != ',')⟩
  | [] =>
    match net.SplitHostPort r.RemoteAddr with
    | .ok hp => hp.1
    | .error _ => r.RemoteAddr


/-! ## Package `time` -/

namespace time

/-- An instant (Go `time.Time`): nanoseconds on the clock of the process. A
duration (Go `time.Duration`) is a count of nanoseconds, an `Int` kept within
the signed 64-bit range by `Sub`. -/
abbrev Time := Int

/-- Go `time.Second`. -/
def Second : Int := 1000000000

/-- Go `time.Minute`. -/
def Minute : Int := 60 * Second

/-- The largest `Duration`. -/
def maxDuration : Int := 2 ^ 63 - 1

/-- The smallest `Duration`. -/
def minDuration : Int := -(2 ^ 63)

/-- Go `Time.Sub`: the difference `t - u`, saturated to the range of `Duration`. -/
def Sub (t u : Int) : Int :=
  if t - u > maxDuration then maxDuration
  else if t - u < minDuration then minDuration
  else t - u

/-- Go `time.Since(t)`, i.e. `time.Now().Sub(t)`, with the reading `now` of the
clock made explicit. -/
def Since (now t : Int) : Int := Sub now t

end time

/-! ## Package `golang.org/x/time/rate` -/

namespace rate

/-- Modelled from the spec: the unit in which the token bucket of the external
package `golang.org/x/time/rate` is counted here. Tokens are counted in
billionths, so that the continuous refill at `r` tokens per second adds exactly
`r` units per nanosecond. -/
def unitsPerToken : Nat := 1000000000

/-- Modelled from the spec: the token bucket `rate.Limiter` of the external
package `golang.org/x/time/rate`, which is not part of the repository. The
specification (section 3, TokenBucket) gives it a rate in requests per second
and a burst capacity, with the available tokens kept between 0 and the burst
and refilled continuously at the rate. -/
structure Limiter where
  limit : Nat
  burst : Nat
  tokens : Nat
  last : time.Time
deriving DecidableEq, Repr

/-- Modelled from the spec: `rate.NewLimiter(r, b)` of the external package
`golang.org/x/time/rate`; a new bucket holds its full burst (section 8: the
first 10 calls on a new key succeed). -/
def NewLimiter (r b : Nat) : Limiter :=
  { limit := r, burst := b, tokens := b * unitsPerToken, last := 0 }

/-- Modelled from the spec: the tokens available at `now`, after the continuous
refill at `limit` tokens per second since `last`, capped at the burst. -/
def Limiter.available (lim : Limiter) (now : time.Time) : Nat :=
  min (lim.burst * unitsPerToken) (lim.tokens + (now - lim.last).toNat * lim.limit)

/-- Modelled from the spec: `Limiter.Allow()` of the external package
`golang.org/x/time/rate`, with the reading `now` of the clock made explicit:
one token is taken if at least one is available, else the call is denied and
the bucket is left as it was. -/
def Limiter.Allow (lim : Limiter) (now : time.Time) : Limiter × Bool :=
  let tokens := lim.available now
  if unitsPerToken ≤ tokens then
    ({ lim with tokens := tokens - unitsPerToken, last := now }, true)
  else (lim, false)

end rate

/-! ## The visitors registry -/

/-- `visitor` of `main.go`: tracks the rate limiter for each IP. The limiter,
a pointer in Go, is stored by value; `rateLimitMiddleware` writes it back. -/
structure visitor where
  limiter : rate.Limiter
  lastSeen : time.Time
deriving DecidableEq, Repr

/-- The global `visitors` map (`map[string]*visitor`): a finite map without
duplicate keys. -/
abbrev Visitors := AList (fun _ : String => visitor)

/-- `getVisitor` of `main.go`, with the reading `now` of the clock made
explicit: returns the new registry and the limiter of `ip`. -/
def getVisitor (visitors : Visitors) (ip : String) (now : time.Time) :
    Visitors × rate.Limiter :=
  match visitors.lookup ip with
  | none =>
    -- Allow 10 requests with burst of 10 (1 request per second average)
    let limiter := rate.NewLimiter 1 10
    (visitors.insert ip ⟨limiter, now⟩, limiter)
  | some v => (visitors.insert ip { v with lastSeen := now }, v.limiter)

/-- One pass of the loop body of `cleanupVisitors` of `main.go` (what runs
between `mu.Lock()` and `mu.Unlock()`), with the reading `now` of the clock made
explicit: ranges over the entries and deletes the stale ones. -/
def cleanupPass (visitors : Visitors) (now : time.Time) : Visitors :=
  visitors.entries.foldl
    (fun m e => if time.Since now e.2.lastSeen > 10 * time.Minute then m.erase e.1 else m)
    visitors

/-- `cleanupVisitors` of `main.go` run for as many rounds as there are wake-up
times in `wakeups` (the Go loop never ends): one pass at each. -/
def cleanupVisitors (visitors : Visitors) (wakeups : List time.Time) : Visitors :=
  wakeups.foldl cleanupPass visitors

/-- Stores through the limiter pointer of the entry of `ip`: the state that a
call of `Allow` on the pointer returned by `getVisitor` leaves in the registry. -/
def storeLimiter (visitors : Visitors) (ip : String) (lim : rate.Limiter) : Visitors :=
  match visitors.lookup ip with
  | none => visitors
  | some v => visitors.insert ip { v with limiter := lim }

/-- The admission check of `rateLimitMiddleware`: `getVisitor(ip)` followed by
`Allow()` on the limiter it returns, both at clock reading `now`. -/
def admission (visitors : Visitors) (ip : String) (now : time.Time) : Visitors × Bool :=
  let (visitors, limiter) := getVisitor visitors ip now
  let (limiter, ok) := limiter.Allow now
  (storeLimiter visitors ip limiter, ok)

/-- Consecutive admission checks for `ip`, one at each of the clock readings
`times`: the final registry and the answers in order. -/
def admissions (visitors : Visitors) (ip : String) : List time.Time → Visitors × List Bool
  | [] => (visitors, [])
  | now :: times =>
    let (visitors, ok) := admission visitors ip now
    let (visitors, oks) := admissions visitors ip times
    (visitors, ok :: oks)

/-! ## Responses and handlers -/

namespace http

/-- Go `http.StatusOK`. -/
def StatusOK : Nat := 200

/-- Go `http.StatusBadRequest`. -/
def StatusBadRequest : Nat := 400

/-- Go `http.StatusNotFound`. -/
def StatusNotFound : Nat := 404

/-- Go `http.StatusTooManyRequests`. -/
def StatusTooManyRequests : Nat := 429

/-- What a handler may leave behind besides the response it writes. -/
inductive Served where
  /-- The call `http.ServeFile(w, r, name)`. -/
  | File (name : String)
deriving DecidableEq, Repr

/-- The response under construction (`http.ResponseWriter`, as
`httptest.ResponseRecorder` records it): the header map, the status once it has
been written, the body, and the files handed to `http.ServeFile`. -/
structure ResponseWriter where
  header : Header
  status : Option Nat
  body : String
  served : List Served

/-- A response nothing has been written to. -/
def ResponseWriter.new : ResponseWriter :=
  { header := Header.empty, status := none, body := "", served := [] }

/-- Go `ResponseWriter.WriteHeader`: the first status written is the one sent. -/
def ResponseWriter.WriteHeader (w : ResponseWriter) (code : Nat) : ResponseWriter :=
  match w.status with
  | none => { w with status := some code }
  | some _ => w

/-- Go `ResponseWriter.Write`: writes status 200 first if none was written. -/
def ResponseWriter.Write (w : ResponseWriter) (data : String) : ResponseWriter :=
  let w := w.WriteHeader StatusOK
  { w with body := w.body ++ data }

/-- Go `http.Error`: a plain-text reply with the given status and message
(the content type and the no-sniff header are set, the status is written, the
message and a newline follow). -/
def Error (w : ResponseWriter) (error : String) (code : Nat) : ResponseWriter :=
  let w := { w with header := w.header.Set "Content-Type" "text/plain; charset=utf-8" }
  let w := { w with header := w.header.Set "X-Content-Type-Options" "nosniff" }
  let w := w.WriteHeader code
  w.Write (error ++ "\n")

end http

/-- The state a handler runs in: the registry, the reading of the clock, the
response being written, and whatever else (`world`) downstream handlers use. -/
structure ServerState (ε : Type) where
  visitors : Visitors
  now : time.Time
  w : ResponseWriter
  world : ε

/-- Go `http.Handler`: `ServeHTTP(w, r)` as a state transformer. -/
abbrev Handler (ε : Type) := Request → ServerState ε → ServerState ε

/-- `rateLimitMiddleware` of `main.go`. -/
def rateLimitMiddleware {ε : Type} (next : Handler ε) : Handler ε :=
  fun r s =>
    let ip := getAddress r
    let (visitors, limiter) := getVisitor s.visitors ip s.now
    let (limiter, ok) := limiter.Allow s.now
    let s := { s with visitors := storeLimiter visitors ip limiter }
    if !ok then
      { s with w := http.Error s.w "Rate limit exceeded. Please try again later."
                      http.StatusTooManyRequests }
    else
      next r s

/-- The limiter that `getVisitor` returns for `ip`: the one of its entry, or a
new one when the registry has no entry. -/
def limiterOf (visitors : Visitors) (ip : String) : rate.Limiter :=
  match visitors.lookup ip with
  | none => rate.NewLimiter 1 10
  | some v => v.limiter

/-- Consecutive calls of `Allow` on one limiter, one at each of the clock
readings `times`: the answers in order. -/
def allowAll (lim : rate.Limiter) : List time.Time → List Bool
  | [] => []
  | now :: times => (lim.Allow now).2 :: allowAll (lim.Allow now).1 times

/-! ## Sample data -/

/-- A registry with one busy entry, used to instantiate the theorems on the
registry. -/
def sampleVisitors : Visitors :=
  (∅ : Visitors).insert "198.51.100.7" ⟨⟨1, 10, 3 * rate.unitsPerToken, 40⟩, 40⟩

/-- A downstream handler that counts its invocations in `world` and answers
with a short body. -/
def countingHandler : Handler Nat :=
  fun _ s => { s with world := s.world + 1, w := s.w.Write "ok\n" }

/-- A request forwarded for `198.51.100.7`. -/
def sampleRequest : Request :=
  { Header := Header.Set Header.empty "X-Forwarded-For" "198.51.100.7"
    RemoteAddr := "10.0.0.1:5000"
    Path := "/" }

/-- A registry in which `198.51.100.7` has used up its burst at instant 40. -/
def drainedVisitors : Visitors :=
  (∅ : Visitors).insert "198.51.100.7" ⟨⟨1, 10, 0, 40⟩, 40⟩


/-! ## GeoIP enrichment -/

/-- `GeoLocation` of `main.go`. -/
structure GeoLocation where
  Org : String
  Details : String
  CountryCode : String
  City : String
  Country : String
  State : String
deriving DecidableEq, Repr

namespace geoip2

/-- Go `net.IP`: the bytes of a parsed address. -/
abbrev IP := List Nat

/-- An entry of `geoip2.City.Subdivisions`, of which `getGeo` reads the code. -/
structure Subdivision where
  IsoCode : String
deriving DecidableEq, Repr

/-- The fields of a `geoip2.City` record that `getGeo` reads. `Names` maps a
language code to a name; a language that is not in the map yields `""`. -/
structure City where
  CityNames : String → String
  CountryNames : String → String
  CountryIsoCode : String
  Subdivisions : List Subdivision

/-- The field of a `geoip2.Enterprise` record that `getGeo` reads. -/
structure Enterprise where
  TraitsISP : String
deriving DecidableEq, Repr

/-- A lookup made in one of the two databases. -/
inductive Lookup where
  | City (ip : IP)
  | Enterprise (ip : IP)
deriving DecidableEq, Repr

end geoip2

/-- What `getGeo` depends on besides its argument: the address parser of the
standard library (`net.ParseIP`, `none` for Go's `nil`) and the two database
readers of `main.go`, each `none` when the database is not configured (a `nil`
reader) and otherwise the lookup function of the opened database. -/
structure GeoEnv where
  ParseIP : String → Option geoip2.IP
  cityReader : Option (geoip2.IP → Except String geoip2.City)
  orgReader : Option (geoip2.IP → Except String geoip2.Enterprise)

/-- The city part of `getGeo` of `main.go` (the block under
`if cityReader != nil`), with the lookups it makes. -/
def getGeoCity (env : GeoEnv) (ip : geoip2.IP) (loc : GeoLocation) :
    GeoLocation × List geoip2.Lookup :=
  match env.cityReader with
  | none => (loc, [])
  | some cityReader =>
    match cityReader ip with
    | .error _ => (loc, [.City ip])
    | .ok record =>
      let loc := { loc with City := record.CityNames "en" }
      let loc := { loc with Country := record.CountryNames "en" }
      let loc := { loc with CountryCode := record.CountryIsoCode }
      let loc :=
        match record.Subdivisions with
        | sub :: _ => { loc with State := sub.IsoCode }
        | [] => loc
      let parts : List String := []
      let parts := if loc.City ≠ "" then parts ++ [loc.City] else parts
      let parts := if loc.State ≠ "" then parts ++ [loc.State] else parts
      let parts := if loc.Country ≠ "" then parts ++ [loc.Country] else parts
      let loc :=
        if parts.length > 0 then { loc with Details := strings.Join parts ", " } else loc
      (loc, [.City ip])

/-- The organization part of `getGeo` of `main.go` (the block under
`if orgReader != nil`), with the lookups it makes. -/
def getGeoOrg (env : GeoEnv) (ip : geoip2.IP) (loc : GeoLocation) :
    GeoLocation × List geoip2.Lookup :=
  match env.orgReader with
  | none => (loc, [])
  | some orgReader =>
    match orgReader ip with
    | .error _ => (loc, [.Enterprise ip])
    | .ok isp => ({ loc with Org := isp.TraitsISP }, [.Enterprise ip])

/-- `getGeo` of `main.go`, together with the database lookups it performs. -/
def getGeoTraced (env : GeoEnv) (ipStr : String) : GeoLocation × List geoip2.Lookup :=
  let loc : GeoLocation :=
    { Org := "", Details := "Unknown", CountryCode := "XX", City := "", Country := "",
      State := "" }
  match env.ParseIP ipStr with
  | none => (loc, [])
  | some ip =>
    let (loc, cityLookups) := getGeoCity env ip loc
    let (loc, orgLookups) := getGeoOrg env ip loc
    (loc, cityLookups ++ orgLookups)

/-- `getGeo` of `main.go`: the location it returns. -/
def getGeo (env : GeoEnv) (ipStr : String) : GeoLocation :=
  (getGeoTraced env ipStr).1

/-- The first subdivision code of a city record, `""` when it has none: what
`getGeo` stores in `State`. -/
def firstSubdivision (record : geoip2.City) : String :=
  match record.Subdivisions with
  | sub :: _ => sub.IsoCode
  | [] => ""

/-- The join rule for `Details` as the specification words it: the non-empty
values among city, state and country, in that order, joined with `", "`, and
`"Unknown"` when there is none. -/
def detailsRef (city state country : String) : String :=
  match [city, state, country].filter (fun s => s != "") with
  | [] => "Unknown"
  | parts => strings.Join parts ", "

/-- A parser that knows two documentation addresses, to instantiate `GeoEnv`. -/
def sampleParseIP (s : String) : Option geoip2.IP :=
  if s = "203.0.113.5" then some [203, 0, 113, 5]
  else if s = "192.0.2.1" then some [192, 0, 2, 1]
  else none

/-- A language map with an English entry only. -/
def englishName (name : String) : String → String :=
  fun lang => if lang = "en" then name else ""

/-- A city database: `203.0.113.5` is in Paris, with no subdivision on record;
`192.0.2.1` has a record that names no country. -/
def sampleCityReader (ip : geoip2.IP) : Except String geoip2.City :=
  if ip = [203, 0, 113, 5] then
    .ok { CityNames := englishName "Paris", CountryNames := englishName "France",
          CountryIsoCode := "FR", Subdivisions := [] }
  else if ip = [192, 0, 2, 1] then
    .ok { CityNames := englishName "", CountryNames := englishName "",
          CountryIsoCode := "", Subdivisions := [] }
  else .error "address not found"

/-- An organization database with one entry. -/
def sampleOrgReader (ip : geoip2.IP) : Except String geoip2.Enterprise :=
  if ip = [203, 0, 113, 5] then .ok { TraitsISP := "Example Net" }
  else .error "address not found"

/-- An environment with both databases configured. -/
def sampleGeoEnv : GeoEnv :=
  { ParseIP := sampleParseIP, cityReader := some sampleCityReader,
    orgReader := some sampleOrgReader }

/-! ## Package `path` -/

namespace path

/-- The backward scan of the `..` case of Go `path.Clean`, started at index `w`
of the buffer `buf`: `for out.w > dotdot && out.index(out.w) != '/' { out.w-- }`;
the result is the final `out.w`. -/
def backtrack (buf : List Char) (dotdot : Nat) : Nat → Nat
  | 0 => 0
  | w + 1 =>
    if w + 1 > dotdot ∧ buf.get? (w + 1) ≠ some '/' then backtrack buf dotdot w else w + 1

/-- The main loop of Go `path.Clean`: `rest` is what remains to be read of the
path (`path[r:]`), `out` the bytes written so far (`out.w` is its length) and
`dotdot` the index in `out` where `..` must stop. Each round consumes at least
one character of `rest`; `fuel` bounds the number of rounds. -/
def cleanLoop (rooted : Bool) : Nat → List Char → List Char → Nat → List Char
  | 0, _, out, _ => out
  | fuel + 1, rest, out, dotdot =>
    match rest with
    | [] => out
    | c :: rest1 =>
      if c = '/' then
        -- empty path element
        cleanLoop rooted fuel rest1 out dotdot
      else if c = '.' ∧ (rest1 = [] ∨ rest1.head? = some '/') then
        -- . element
        cleanLoop rooted fuel rest1 out dotdot
      else if c = '.' ∧ rest1.head? = some '.' ∧
          (rest1.tail = [] ∨ rest1.tail.head? = some '/') then
        -- .. element: remove to last /
        if out.length > dotdot then
          -- can backtrack
          cleanLoop rooted fuel rest1.tail
            (out.take (backtrack out dotdot (out.length - 1))) dotdot
        else if !rooted then
          -- cannot backtrack, but not rooted, so append .. element.
          let out1 := if out.length > 0 then out ++ ['/'] else out
          let out2 := out1 ++ ['.', '.']
          cleanLoop rooted fuel rest1.tail out2 out2.length
        else cleanLoop rooted fuel rest1.tail out dotdot
      else
        -- real path element. add slash if needed
        let out1 :=
          if (rooted = true ∧ out.length ≠ 1) ∨ (rooted = false ∧ out.length ≠ 0) then
            out ++ ['/']
          else out
        -- copy element
        cleanLoop rooted fuel (rest.dropWhile (fun x => x != '/'))
          (out1 ++ rest.takeWhile (fun x => x != '/')) dotdot

/-- Go `path.Clean`: the shortest path name equivalent to `path` by purely
lexical processing. -/
def Clean (path : String) : String :=
  if path = "" then "."
  else
    let rooted : Bool := path.data.head? = some '/'
    let out :=
      if rooted then cleanLoop true path.data.length path.data.tail ['/'] 1
      else cleanLoop false path.data.length path.data [] 0
    -- Turn empty string into "."
    if out.length = 0 then "." else ⟨out⟩

end path

/-! ## Package `path/filepath` (Unix) -/

namespace filepath

/-- Go `filepath.Clean` on Unix, where the separator is `/` and there are no
volume names: the same function as `path.Clean`. -/
def Clean (path : String) : String := IpEcho.path.Clean path

/-- Go `filepath.Join` on Unix: leading empty elements are ignored, the rest
is joined with `/` and cleaned; `""` when every element is empty. -/
def Join (elem : List String) : String :=
  match elem.dropWhile (fun e => e = "") with
  | [] => ""
  | es => Clean (strings.Join es "/")

end filepath

/-! ## Static files -/

/-- Go `http.ServeFile(w, r, name)`: hands the named file to the file server.
What the file server then writes depends on the file system (and, as a
precaution of its own, it refuses a request whose URL path has a `..` element);
the call is recorded in the response. -/
def http.ServeFile (w : ResponseWriter) (name : String) : ResponseWriter :=
  { w with served := w.served ++ [Served.File name] }

/-- `safeStaticHandler` of `main.go` (prevents path traversal attacks), with
the global `staticDir` as a parameter. -/
def safeStaticHandler (staticDir : String) (w : ResponseWriter) (r : Request) :
    ResponseWriter :=
  -- Clean the path and ensure it stays within staticDir
  let requestPath := r.Path
  if !strings.HasPrefix requestPath "/static/" then
    http.Error w "Not found" http.StatusNotFound
  else
    let relPath := strings.TrimPrefix requestPath "/static/"
    let relPath := path.Clean ("/" ++ relPath)
    if strings.Contains relPath ".." then
      http.Error w "Invalid path" http.StatusBadRequest
    else
      let fullPath := filepath.Join [staticDir, relPath]
      http.ServeFile w fullPath

/-- `serveStaticFile` of `main.go` (the handler of `/favicon.ico` and
`/robots.txt`), with the global `staticDir` as a parameter. -/
def serveStaticFile (staticDir : String) (w : ResponseWriter) (filename : String) :
    ResponseWriter :=
  -- Ensure only the exact file is served
  if strings.Contains filename ".." || strings.Contains filename "/" then
    http.Error w "Invalid filename" http.StatusBadRequest
  else
    http.ServeFile w (filepath.Join [staticDir, filename])

/-! ## What a path names -/

/-- One step of the lexical resolution of a path from the directory `dir`
(a list of names below the root): an empty name and `.` stay, `..` goes to the
parent (the root is its own parent), any other name goes down. -/
def walk (dir : List String) (name : String) : List String :=
  if name = "" ∨ name = "." then dir
  else if name = ".." then dir.dropLast
  else dir ++ [name]

/-- The location a path names, as a list of names below the root, when the
working directory is `cwd`: a path that starts with `/` is resolved from the
root, any other from `cwd`; the empty path names nothing. -/
def resolve (cwd : List String) (p : String) : Option (List String) :=
  if p = "" then none
  else some ((strings.Split p '/').foldl walk (if strings.HasPrefix p "/" then [] else cwd))

/-! ### The cleaning loop, one path element at a time -/

/-- What one round of the loop of `path.Clean` does to the buffer `out` and to
`dotdot` when the path element it reads is `elem`. -/
def path.stepElem (rooted : Bool) (st : List Char × Nat) (elem : List Char) :
    List Char × Nat :=
  if elem = [] ∨ elem = ['.'] then st
  else if elem = ['.', '.'] then
    if st.1.length > st.2 then
      (st.1.take (path.backtrack st.1 st.2 (st.1.length - 1)), st.2)
    else if !rooted then
      let out1 := if st.1.length > 0 then st.1 ++ ['/'] else st.1
      let out2 := out1 ++ ['.', '.']
      (out2, out2.length)
    else st
  else
    let out1 :=
      if (rooted = true ∧ st.1.length ≠ 1) ∨ (rooted = false ∧ st.1.length ≠ 0) then
        st.1 ++ ['/']
      else st.1
    (out1 ++ elem, st.2)

/-- Path elements written one after the other with a `/` between them. -/
def path.joinSlash : List (List Char) → List Char
  | [] => []
  | [a] => a
  | a :: b :: rest => a ++ '/' :: path.joinSlash (b :: rest)

/-- The elements that the buffer of `path.Clean` holds: `dots` leading `..`
elements followed by the names `names`. -/
def path.stackOf (dots : Nat) (names : List (List Char)) : List (List Char) :=
  List.replicate dots ['.', '.'] ++ names

/-- One round of the loop of `path.Clean` on the elements the buffer holds. -/
def path.absStep (rooted : Bool) (st : Nat × List (List Char)) (elem : List Char) :
    Nat × List (List Char) :=
  if elem = [] ∨ elem = ['.'] then st
  else if elem = ['.', '.'] then
    if st.2 ≠ [] then (st.1, st.2.dropLast)
    else if !rooted then (st.1 + 1, st.2)
    else st
  else (st.1, st.2 ++ [elem])

/-- The leading slash of a rooted path. -/
def path.lead (rooted : Bool) : List Char := if rooted then ['/'] else []

/-- The buffer `buf.1` and the index `buf.2` (`dotdot`) of `path.Clean` hold
the stack `abs`: `abs.1` leading `..` elements (none when the path is rooted)
followed by the names `abs.2`, none of them empty, `.` or `..`. -/
structure path.Holds (rooted : Bool) (buf : List Char × Nat)
    (abs : Nat × List (List Char)) : Prop where
  out_eq : buf.1 = path.lead rooted ++ path.joinSlash (path.stackOf abs.1 abs.2)
  dotdot_eq : buf.2 = (path.lead rooted ++ path.joinSlash (path.stackOf abs.1 [])).length
  rooted_dots : rooted = true → abs.1 = 0
  names_ok : ∀ n ∈ abs.2, n ≠ [] ∧ '/' ∉ n ∧ n ≠ ['.'] ∧ n ≠ ['.', '.']

/-- Where the stack `abs` of path elements leads from the directory `start`. -/
def path.sem (start : List String) (abs : Nat × List (List Char)) : List String :=
  ((path.stackOf abs.1 abs.2).map String.mk).foldl walk start

/-! # Theorems -/

theorem strings.splitChars_headD (sep : Char) (cs : List Char) :
    (strings.splitChars sep cs).headD [] = cs.takeWhile (fun c => c != sep) := by
  induction cs with
  | nil => rfl
  | cons c cs ih =>
    by_cases h : c = sep
    · simp [strings.splitChars, h]
    · have hne : (c != sep) = true := by simpa using h
      simp only [strings.splitChars, h, if_false, List.takeWhile_cons, hne, if_true]
      cases hs : strings.splitChars sep cs with
      | nil => rw [hs] at ih; simpa using ih
      | cons p ps => rw [hs] at ih; simpa using ih

theorem strings.Split_headD (s : String) (sep : Char) :
    (strings.Split s sep).headD "" = ⟨s.data.takeWhile (fun c => c != sep)⟩ := by
  rw [← strings.splitChars_headD]
  unfold strings.Split
  cases strings.splitChars sep s.data <;> rfl

/-- What `strings.TrimSpace` computes: the argument is white space, then the
result, then white space, and the result neither starts nor ends with white
space. -/
theorem strings.TrimSpace_spec (s : String) :
    ∃ pre post : List Char,
      s.data = pre ++ (strings.TrimSpace s).data ++ post ∧
      (∀ c ∈ pre, strings.IsSpace c = true) ∧ (∀ c ∈ post, strings.IsSpace c = true) ∧
      (∀ c, (strings.TrimSpace s).data.head? = some c → strings.IsSpace c = false) ∧
      (∀ c, (strings.TrimSpace s).data.getLast? = some c → strings.IsSpace c = false) := by
  have hm : ∀ m : List Char,
      m = ((m.reverse.dropWhile strings.IsSpace).reverse) ++
        ((m.reverse.takeWhile strings.IsSpace).reverse) := by
    intro m
    have := List.takeWhile_append_dropWhile strings.IsSpace m.reverse
    have h2 := congrArg List.reverse this
    rw [List.reverse_append, List.reverse_reverse] at h2
    exact h2.symm
  refine ⟨s.data.takeWhile strings.IsSpace,
    ((s.data.dropWhile strings.IsSpace).reverse.takeWhile strings.IsSpace).reverse,
    ?_, ?_, ?_, ?_, ?_⟩
  · show s.data = _ ++ ((s.data.dropWhile strings.IsSpace).reverse.dropWhile
        strings.IsSpace).reverse ++ _
    rw [List.append_assoc, ← hm, List.takeWhile_append_dropWhile]
  · intro c hc
    exact List.mem_takeWhile_imp hc
  · intro c hc
    exact List.mem_takeWhile_imp (List.mem_reverse.mp hc)
  · intro c hc
    show strings.IsSpace c = false
    have hres : (strings.TrimSpace s).data =
        ((s.data.dropWhile strings.IsSpace).reverse.dropWhile strings.IsSpace).reverse := rfl
    rw [hres] at hc
    have hne : s.data.dropWhile strings.IsSpace ≠ [] := by
      intro h0
      rw [h0] at hc
      simp at hc
    have hhead := List.head_dropWhile_not strings.IsSpace s.data hne
    have hdecomp := hm (s.data.dropWhile strings.IsSpace)
    have hres_ne : ((s.data.dropWhile strings.IsSpace).reverse.dropWhile
        strings.IsSpace).reverse ≠ [] := by
      intro h0
      rw [h0] at hc
      simp at hc
    have : (s.data.dropWhile strings.IsSpace).head? = some c := by
      rw [hdecomp, List.head?_append_of_ne_nil _ hres_ne]
      exact hc
    rw [List.head?_eq_head hne] at this
    have hc2 : (s.data.dropWhile strings.IsSpace).head hne = c := Option.some.inj this
    rw [← hc2]
    simpa using hhead
  · intro c hc
    have hres : (strings.TrimSpace s).data =
        ((s.data.dropWhile strings.IsSpace).reverse.dropWhile strings.IsSpace).reverse := rfl
    rw [hres, List.getLast?_reverse] at hc
    have hne : (s.data.dropWhile strings.IsSpace).reverse.dropWhile strings.IsSpace ≠ [] := by
      intro h0
      rw [h0] at hc
      simp at hc
    have hhead := List.head_dropWhile_not strings.IsSpace _ hne
    rw [List.head?_eq_head hne] at hc
    have hc2 := Option.some.inj hc
    rw [← hc2]
    simpa using hhead

theorem getAddress_eq_ref (r : Request) : getAddress r = getAddressRef r := by
  unfold getAddress getAddressRef Header.Get
  cases hx : r.Header "X-Forwarded-For" with
  | nil =>
    simp only [ne_eq, not_true_eq_false, if_false]
    cases net.SplitHostPort r.RemoteAddr with
    | error e => rfl
    | ok hp => rfl
  | cons v vs =>
    by_cases hv : v = ""
    · simp only [hv, ne_eq, not_true_eq_false, if_false, if_true]
      cases net.SplitHostPort r.RemoteAddr with
      | error e => rfl
      | ok hp => rfl
    · simp only [ne_eq, hv, not_false_eq_true, if_true, if_false, strings.Split_headD]

/-- Claim C1: on every request `getAddress` equals the reference definition
(text before the first comma of a non-empty `X-Forwarded-For` value, trimmed;
otherwise the host of `RemoteAddr` when it splits into host and port;
otherwise `RemoteAddr` unchanged); and the header value
`"203.0.113.5, 10.0.0.1"` yields `"203.0.113.5"` whatever the other headers,
`RemoteAddr` and the path are. -/
theorem getAddress_refines_reference :
    (∀ r : Request, getAddress r = getAddressRef r) ∧
    (∀ (h : Header) (remote path : String),
      getAddress ⟨Header.Set h "X-Forwarded-For" "203.0.113.5, 10.0.0.1", remote, path⟩
        = "203.0.113.5") := by
  refine ⟨getAddress_eq_ref, ?_⟩
  intro h remote path
  rw [getAddress_eq_ref]
  have hne : ¬ ("203.0.113.5, 10.0.0.1" = "") := by decide
  simp only [getAddressRef, Header.Set, if_true, hne, if_false]
  decide


theorem strings.TrimSpace_eq_empty_iff (s : String) :
    strings.TrimSpace s = "" ↔ ∀ c ∈ s.data, strings.IsSpace c = true := by
  have h0 : strings.TrimSpace s = "" ↔
      ((s.data.dropWhile strings.IsSpace).reverse.dropWhile strings.IsSpace).reverse = [] := by
    unfold strings.TrimSpace
    constructor
    · intro h; exact congrArg String.data h
    · intro h; rw [h]
  rw [h0, List.reverse_eq_nil_iff, List.dropWhile_eq_nil_iff]
  constructor
  · intro h
    have hd : s.data.dropWhile strings.IsSpace = [] := by
      by_contra hne
      have hh := List.head_dropWhile_not strings.IsSpace s.data hne
      have hm : (s.data.dropWhile strings.IsSpace).head hne ∈
          (s.data.dropWhile strings.IsSpace).reverse :=
        List.mem_reverse.mpr (List.head_mem hne)
      rw [h _ hm] at hh
      exact Bool.noConfusion hh
    exact List.dropWhile_eq_nil_iff.mp hd
  · intro h
    rw [List.dropWhile_eq_nil_iff.mpr h]
    intro x hx
    simp at hx

/-- Claim C5, refuted as stated: the forwarding header `", 10.0.0.1"`, whose
first entry is empty, resolves to the empty string; and so does a request with
no forwarding header and an empty `RemoteAddr` (what `http.NewRequest` builds). -/
theorem getAddress_can_be_empty :
    getAddress ⟨Header.Set Header.empty "X-Forwarded-For" ", 10.0.0.1", "192.0.2.1:1234", "/"⟩
      = "" ∧
    getAddress ⟨Header.empty, "", "/"⟩ = "" := by
  decide

/-- Claim C5, amended: `getAddress` is total, and its result is non-empty exactly
when the `X-Forwarded-For` value is non-empty and the text before its first
comma holds a character that is not white space, or the `X-Forwarded-For` value
is empty or absent and `RemoteAddr` either splits into a non-empty host and a
port or does not split and is itself non-empty. -/
theorem getAddress_nonempty_iff (r : Request) :
    getAddress r ≠ "" ↔
      (r.Header.Get "X-Forwarded-For" ≠ "" ∧
        ∃ c ∈ (r.Header.Get "X-Forwarded-For").data.takeWhile (fun c => c != ','),
          strings.IsSpace c = false) ∨
      (r.Header.Get "X-Forwarded-For" = "" ∧
        match net.SplitHostPort r.RemoteAddr with
        | .ok (host, _) => host ≠ ""
        | .error _ => r.RemoteAddr ≠ "") := by
  by_cases hx : r.Header.Get "X-Forwarded-For" = ""
  · have : getAddress r = match net.SplitHostPort r.RemoteAddr with
        | .error _ => r.RemoteAddr
        | .ok (ip, _) => ip := by
      simp only [getAddress, hx, ne_eq, not_true_eq_false, if_false]
    rw [this]
    simp only [hx, ne_eq, not_true_eq_false, false_and, false_or, true_and]
    cases net.SplitHostPort r.RemoteAddr with
    | error e => exact Iff.rfl
    | ok hp => exact Iff.rfl
  · have : getAddress r = strings.TrimSpace
        ⟨(r.Header.Get "X-Forwarded-For").data.takeWhile (fun c => c != ',')⟩ := by
      simp only [getAddress, ne_eq, hx, not_false_eq_true, if_true, strings.Split_headD]
    rw [this]
    simp only [ne_eq, hx, not_false_eq_true, true_and, false_and, or_false,
      strings.TrimSpace_eq_empty_iff]
    constructor
    · intro h
      by_contra hc
      apply h
      intro c hcm
      by_contra hsp
      exact hc ⟨c, hcm, by simpa using hsp⟩
    · rintro ⟨c, hcm, hsp⟩ h
      rw [h c hcm] at hsp
      exact Bool.noConfusion hsp


/-! ## The registry and the limiter -/

theorem getVisitor_snd (visitors : Visitors) (ip : String) (now : time.Time) :
    (getVisitor visitors ip now).2 = limiterOf visitors ip := by
  unfold getVisitor limiterOf
  cases visitors.lookup ip <;> rfl

theorem getVisitor_lookup (visitors : Visitors) (ip : String) (now : time.Time) :
    (getVisitor visitors ip now).1.lookup ip = some ⟨limiterOf visitors ip, now⟩ := by
  unfold getVisitor limiterOf
  cases visitors.lookup ip <;> simp

theorem admission_snd (visitors : Visitors) (ip : String) (now : time.Time) :
    (admission visitors ip now).2 = ((limiterOf visitors ip).Allow now).2 := by
  simp only [admission, getVisitor_snd]

theorem admission_limiterOf (visitors : Visitors) (ip : String) (now : time.Time) :
    limiterOf (admission visitors ip now).1 ip = ((limiterOf visitors ip).Allow now).1 := by
  simp only [admission, getVisitor_snd, storeLimiter, getVisitor_lookup]
  simp [limiterOf]

theorem admissions_snd (visitors : Visitors) (ip : String) (times : List time.Time) :
    (admissions visitors ip times).2 = allowAll (limiterOf visitors ip) times := by
  induction times generalizing visitors with
  | nil => rfl
  | cons now times ih =>
    simp only [admissions, allowAll]
    rw [ih, admission_limiterOf, admission_snd]

theorem allow_fresh (now : time.Time) :
    (rate.NewLimiter 1 10).Allow now = (⟨1, 10, 9 * rate.unitsPerToken, now⟩, true) := by
  simp only [rate.Limiter.Allow, rate.Limiter.available, rate.NewLimiter, rate.unitsPerToken]
  have h : min (10 * 1000000000) (10 * 1000000000 + (now - 0).toNat * 1) = 10000000000 := by
    omega
  rw [h]
  simp

theorem allow_same_instant (k : Nat) (hk : k < 10) (now : time.Time) :
    (⟨1, 10, (k + 1) * rate.unitsPerToken, now⟩ : rate.Limiter).Allow now
      = (⟨1, 10, k * rate.unitsPerToken, now⟩, true) := by
  simp only [rate.Limiter.Allow, rate.Limiter.available, rate.unitsPerToken, sub_self,
    Int.toNat_zero, zero_mul, add_zero]
  have h : min (10 * 1000000000) ((k + 1) * 1000000000) = (k + 1) * 1000000000 := by
    omega
  rw [h]
  have h2 : 1000000000 ≤ (k + 1) * 1000000000 := by omega
  have h3 : (k + 1) * 1000000000 - 1000000000 = k * 1000000000 := by omega
  simp [h2, h3]

theorem allow_empty_same_instant (now : time.Time) :
    (⟨1, 10, 0 * rate.unitsPerToken, now⟩ : rate.Limiter).Allow now
      = (⟨1, 10, 0 * rate.unitsPerToken, now⟩, false) := by
  simp only [rate.Limiter.Allow, rate.Limiter.available, rate.unitsPerToken, sub_self,
    Int.toNat_zero, zero_mul, add_zero]
  have h : ¬ (1000000000 ≤ min (10 * 1000000000) 0) := by omega
  rw [if_neg h]

theorem allowAll_fresh_burst (now : time.Time) :
    allowAll (rate.NewLimiter 1 10) (List.replicate 11 now)
      = List.replicate 10 true ++ [false] := by
  simp only [List.replicate, allowAll, allow_fresh]
  rw [allow_same_instant 8 (by omega), allow_same_instant 7 (by omega),
    allow_same_instant 6 (by omega), allow_same_instant 5 (by omega),
    allow_same_instant 4 (by omega), allow_same_instant 3 (by omega),
    allow_same_instant 2 (by omega), allow_same_instant 1 (by omega),
    allow_same_instant 0 (by omega), allow_empty_same_instant]
  rfl

/-- The limiter that `getVisitor` configures refills one token per second: ten
checks at one instant followed by an eleventh one second later are all
allowed (the comment above `getVisitor` speaks of 10 requests per 10 seconds). -/
theorem allowAll_fresh_eleventh_after_one_second :
    allowAll (rate.NewLimiter 1 10) (List.replicate 10 0 ++ [1000000000])
      = List.replicate 11 true := by
  decide

/-- Claim C2: for a key that is not in the registry, whatever else the
registry holds, eleven consecutive admission checks (`getVisitor` followed by
`Allow`) at one and the same instant answer true ten times and then false. -/
theorem first_ten_allowed_eleventh_denied (visitors : Visitors) (key : String)
    (t : time.Time) (habsent : visitors.lookup key = none) :
    (admissions visitors key (List.replicate 11 t)).2 = List.replicate 10 true ++ [false] := by
  rw [admissions_snd]
  have : limiterOf visitors key = rate.NewLimiter 1 10 := by
    simp [limiterOf, habsent]
  rw [this, allowAll_fresh_burst]

theorem first_ten_allowed_eleventh_denied_witness :
    sampleVisitors.lookup "203.0.113.5" = none ∧
    (admissions sampleVisitors "203.0.113.5" (List.replicate 11 1000)).2
      = List.replicate 10 true ++ [false] :=
  ⟨by decide, first_ten_allowed_eleventh_denied sampleVisitors "203.0.113.5" 1000 (by decide)⟩

/-! ## The sweep -/

theorem time.Since_gt_iff (now t : Int) :
    time.Since now t > 10 * time.Minute ↔ now - t > 10 * time.Minute := by
  unfold time.Since time.Sub time.maxDuration time.minDuration time.Minute time.Second
  have h63 : (2 : Int) ^ 63 = 9223372036854775808 := by norm_num
  rw [h63]
  split_ifs <;> constructor <;> intro h <;> omega

theorem sweep_lookup_some (now : time.Time) (l : List (Sigma fun _ : String => visitor))
    (acc : Visitors) (k : String) (v : visitor)
    (h : (l.foldl (fun m e =>
        if time.Since now e.2.lastSeen > 10 * time.Minute then m.erase e.1 else m) acc).lookup k
          = some v) :
    acc.lookup k = some v := by
  induction l generalizing acc with
  | nil => exact h
  | cons e l ih =>
    rw [List.foldl_cons] at h
    have h1 := ih _ h
    by_cases hs : time.Since now e.2.lastSeen > 10 * time.Minute
    · rw [if_pos hs] at h1
      by_cases hk : k = e.1
      · subst hk
        rw [AList.lookup_erase] at h1
        exact Option.noConfusion h1
      · rwa [AList.lookup_erase_ne hk] at h1
    · rwa [if_neg hs] at h1

theorem sweep_lookup_stale (now : time.Time) (l : List (Sigma fun _ : String => visitor))
    (acc : Visitors) (k : String) (v : visitor) (hmem : (⟨k, v⟩ : Sigma _) ∈ l)
    (hstale : time.Since now v.lastSeen > 10 * time.Minute) :
    (l.foldl (fun m e =>
        if time.Since now e.2.lastSeen > 10 * time.Minute then m.erase e.1 else m) acc).lookup k
          = none := by
  induction l generalizing acc with
  | nil => simp at hmem
  | cons e l ih =>
    rw [List.foldl_cons]
    rcases List.mem_cons.mp hmem with he | hl
    · subst he
      simp only [hstale, if_true]
      cases hres : (l.foldl (fun m e =>
        if time.Since now e.2.lastSeen > 10 * time.Minute then m.erase e.1 else m)
          (acc.erase k)).lookup k with
      | none => rfl
      | some v2 =>
        have := sweep_lookup_some now l _ k v2 hres
        rw [AList.lookup_erase] at this
        exact Option.noConfusion this
    · exact ih _ hl

theorem cleanupPass_lookup (visitors : Visitors) (now : time.Time) (k : String) (v : visitor)
    (h : (cleanupPass visitors now).lookup k = some v) :
    visitors.lookup k = some v ∧ ¬ (now - v.lastSeen > 10 * time.Minute) := by
  have h1 := sweep_lookup_some now visitors.entries visitors k v h
  refine ⟨h1, ?_⟩
  intro hs
  have hmem : (⟨k, v⟩ : Sigma _) ∈ visitors.entries := AList.mem_lookup_iff.mp h1
  have := sweep_lookup_stale now visitors.entries visitors k v hmem
    ((time.Since_gt_iff now v.lastSeen).mpr hs)
  unfold cleanupPass at h
  rw [this] at h
  exact Option.noConfusion h

/-- Claim C3: after one sweep pass at `t` no entry of the registry has a
`lastSeen` more than 10 minutes before `t`; and for every key the pass removed,
the next `getVisitor` inserts a new entry with a new limiter (rate 1 per second,
burst 10, full), so that the admission checks that follow answer exactly as for
a key never seen before, whatever the evicted entry had consumed. -/
theorem sweep_evicts_idle_and_key_restarts_fresh (visitors : Visitors) (t : time.Time) :
    (∀ (key : String) (v : visitor), (cleanupPass visitors t).lookup key = some v →
        ¬ (t - v.lastSeen > 10 * time.Minute)) ∧
    (∀ key : String, visitors.lookup key ≠ none → (cleanupPass visitors t).lookup key = none →
      (∀ now : time.Time,
        getVisitor (cleanupPass visitors t) key now
          = ((cleanupPass visitors t).insert key ⟨rate.NewLimiter 1 10, now⟩,
              rate.NewLimiter 1 10)) ∧
      (rate.NewLimiter 1 10).limit = 1 ∧ (rate.NewLimiter 1 10).burst = 10 ∧
      (rate.NewLimiter 1 10).tokens = 10 * rate.unitsPerToken ∧
      (∀ (unseen : Visitors), unseen.lookup key = none → ∀ times : List time.Time,
        (admissions (cleanupPass visitors t) key times).2 = (admissions unseen key times).2)) := by
  refine ⟨fun key v h => (cleanupPass_lookup visitors t key v h).2, ?_⟩
  intro key _ hgone
  refine ⟨?_, rfl, rfl, rfl, ?_⟩
  · intro now
    simp only [getVisitor, hgone]
  · intro unseen hun times
    rw [admissions_snd, admissions_snd]
    simp only [limiterOf, hgone, hun]

theorem sweep_evicts_idle_and_key_restarts_fresh_witness :
    sampleVisitors.lookup "198.51.100.7" ≠ none ∧
    (cleanupPass sampleVisitors 600000000041).lookup "198.51.100.7" = none ∧
    (admissions (cleanupPass sampleVisitors 600000000041) "198.51.100.7"
        [600000000041, 600000000042]).2
      = (admissions (∅ : Visitors) "198.51.100.7" [600000000041, 600000000042]).2 :=
  ⟨by decide, by decide,
    ((sweep_evicts_idle_and_key_restarts_fresh sampleVisitors 600000000041).2
      "198.51.100.7" (by decide) (by decide)).2.2.2.2 ∅ (by decide) _⟩

/-! ## The rate-limit middleware -/

theorem rateLimitMiddleware_eq {ε : Type} (next : Handler ε) (r : Request)
    (s : ServerState ε) :
    rateLimitMiddleware next r s =
      if (admission s.visitors (getAddress r) s.now).2 = false then
        { s with
          visitors := (admission s.visitors (getAddress r) s.now).1
          w := http.Error s.w "Rate limit exceeded. Please try again later."
                http.StatusTooManyRequests }
      else next r { s with visitors := (admission s.visitors (getAddress r) s.now).1 } := by
  simp only [rateLimitMiddleware, admission]
  cases ((getVisitor s.visitors (getAddress r) s.now).2.Allow s.now).2 <;> simp

theorem http.Error_status (w : ResponseWriter) (msg : String) (code : Nat)
    (hw : w.status = none) : (http.Error w msg code).status = some code := by
  simp [http.Error, ResponseWriter.Write, ResponseWriter.WriteHeader, hw]

/-- Claim C4: when the limiter of the resolved address denies, the handler
returned by `rateLimitMiddleware` is `http.Error` with status 429 on the
response, the same whatever the downstream handler is (it is not invoked), and
the status sent is 429 on a response whose header was not yet written; when the
limiter allows, the handler is exactly one run of the downstream handler on the
untouched response (the middleware writes nothing of its own). -/
theorem rateLimitMiddleware_denies_with_429_or_calls_next {ε : Type} (next : Handler ε)
    (r : Request) (s : ServerState ε) :
    ((admission s.visitors (getAddress r) s.now).2 = false →
      rateLimitMiddleware next r s =
        { s with
          visitors := (admission s.visitors (getAddress r) s.now).1
          w := http.Error s.w "Rate limit exceeded. Please try again later." 429 } ∧
      (∀ other : Handler ε, rateLimitMiddleware other r s = rateLimitMiddleware next r s) ∧
      (s.w.status = none → (rateLimitMiddleware next r s).w.status = some 429)) ∧
    ((admission s.visitors (getAddress r) s.now).2 = true →
      rateLimitMiddleware next r s =
        next r { s with visitors := (admission s.visitors (getAddress r) s.now).1 }) := by
  constructor
  · intro hdeny
    have h1 : ∀ n : Handler ε, rateLimitMiddleware n r s =
        { s with
          visitors := (admission s.visitors (getAddress r) s.now).1
          w := http.Error s.w "Rate limit exceeded. Please try again later." 429 } := by
      intro n
      rw [rateLimitMiddleware_eq, if_pos hdeny]
      rfl
    refine ⟨h1 next, fun other => by rw [h1 other, h1 next], ?_⟩
    intro hw
    rw [h1 next]
    exact http.Error_status s.w _ 429 hw
  · intro hallow
    rw [rateLimitMiddleware_eq, if_neg (by simp [hallow])]

theorem rateLimitMiddleware_denies_with_429_or_calls_next_witness :
    (admission drainedVisitors (getAddress sampleRequest) 40).2 = false ∧
    (rateLimitMiddleware countingHandler sampleRequest
        ⟨drainedVisitors, 40, ResponseWriter.new, 0⟩).w.status = some 429 ∧
    (rateLimitMiddleware countingHandler sampleRequest
        ⟨drainedVisitors, 40, ResponseWriter.new, 0⟩).world = 0 ∧
    (admission sampleVisitors (getAddress sampleRequest) 40).2 = true ∧
    (rateLimitMiddleware countingHandler sampleRequest
        ⟨sampleVisitors, 40, ResponseWriter.new, 0⟩).world = 1 ∧
    (rateLimitMiddleware countingHandler sampleRequest
        ⟨sampleVisitors, 40, ResponseWriter.new, 0⟩).w.status = some 200 :=
  ⟨by decide,
    ((rateLimitMiddleware_denies_with_429_or_calls_next countingHandler sampleRequest
      ⟨drainedVisitors, 40, ResponseWriter.new, 0⟩).1 (by decide)).2.2 rfl,
    by rw [((rateLimitMiddleware_denies_with_429_or_calls_next countingHandler sampleRequest
      ⟨drainedVisitors, 40, ResponseWriter.new, 0⟩).1 (by decide)).1],
    by decide,
    by rw [(rateLimitMiddleware_denies_with_429_or_calls_next countingHandler sampleRequest
      ⟨sampleVisitors, 40, ResponseWriter.new, 0⟩).2 (by decide)]; rfl,
    by rw [(rateLimitMiddleware_denies_with_429_or_calls_next countingHandler sampleRequest
      ⟨sampleVisitors, 40, ResponseWriter.new, 0⟩).2 (by decide)]; rfl⟩

/-! ## `getGeo` -/

theorem getGeoOrg_fields (env : GeoEnv) (ip : geoip2.IP) (loc : GeoLocation) :
    (getGeoOrg env ip loc).1.Details = loc.Details ∧
    (getGeoOrg env ip loc).1.CountryCode = loc.CountryCode := by
  unfold getGeoOrg
  split
  · exact ⟨rfl, rfl⟩
  · split <;> exact ⟨rfl, rfl⟩

theorem bne_empty_of_eq {s : String} (h : s = "") : (s != "") = false := by
  simp [h]

theorem bne_empty_of_ne {s : String} (h : ¬ s = "") : (s != "") = true := by
  simpa using h

theorem getGeoCity_details (env : GeoEnv) (ip : geoip2.IP) (loc : GeoLocation)
    (cityReader : geoip2.IP → Except String geoip2.City) (record : geoip2.City)
    (hreader : env.cityReader = some cityReader) (hrecord : cityReader ip = .ok record)
    (hstate : loc.State = "") (hdetails : loc.Details = "Unknown") :
    (getGeoCity env ip loc).1.Details =
      detailsRef (record.CityNames "en") (firstSubdivision record) (record.CountryNames "en") := by
  simp only [getGeoCity, hreader, hrecord, detailsRef, firstSubdivision]
  cases hsub : record.Subdivisions with
  | nil =>
    by_cases h1 : record.CityNames "en" = "" <;> by_cases h3 : record.CountryNames "en" = "" <;>
      simp [h1, h3, hstate, hdetails, List.filter, bne_empty_of_ne]
  | cons sub rest =>
    by_cases h1 : record.CityNames "en" = "" <;> by_cases h2 : sub.IsoCode = "" <;>
      by_cases h3 : record.CountryNames "en" = "" <;>
      simp [h1, h2, h3, hdetails, List.filter, bne_empty_of_ne]

/-- Claim C6: for a parseable address whose city lookup succeeds, `Details` is
the join with `", "` of the non-empty values among city, state (first
subdivision code) and country, in that order; it is `"Unknown"` when all three
are empty, and `"Paris, France"` for city Paris, no state, country France. -/
theorem getGeo_details_join (env : GeoEnv) (ipStr : String) (ip : geoip2.IP)
    (cityReader : geoip2.IP → Except String geoip2.City) (record : geoip2.City)
    (hparse : env.ParseIP ipStr = some ip) (hreader : env.cityReader = some cityReader)
    (hrecord : cityReader ip = .ok record) :
    (getGeo env ipStr).Details =
      detailsRef (record.CityNames "en") (firstSubdivision record) (record.CountryNames "en") ∧
    (record.CityNames "en" = "" → firstSubdivision record = "" →
      record.CountryNames "en" = "" → (getGeo env ipStr).Details = "Unknown") ∧
    (record.CityNames "en" = "Paris" → firstSubdivision record = "" →
      record.CountryNames "en" = "France" → (getGeo env ipStr).Details = "Paris, France") := by
  have h : (getGeo env ipStr).Details =
      detailsRef (record.CityNames "en") (firstSubdivision record)
        (record.CountryNames "en") := by
    simp only [getGeo, getGeoTraced, hparse]
    rw [(getGeoOrg_fields env ip _).1]
    exact getGeoCity_details env ip _ cityReader record hreader hrecord rfl rfl
  refine ⟨h, ?_, ?_⟩
  · intro h1 h2 h3
    rw [h, h1, h2, h3]
    decide
  · intro h1 h2 h3
    rw [h, h1, h2, h3]
    decide

theorem getGeo_details_join_witness :
    (getGeo sampleGeoEnv "203.0.113.5").Details = "Paris, France" :=
  (getGeo_details_join sampleGeoEnv "203.0.113.5" [203, 0, 113, 5] sampleCityReader
    { CityNames := englishName "Paris", CountryNames := englishName "France",
      CountryIsoCode := "FR", Subdivisions := [] } rfl rfl rfl).2.2 (by decide) (by decide)
    (by decide)

theorem getGeoCity_countryCode (env : GeoEnv) (ip : geoip2.IP) (loc : GeoLocation) :
    (getGeoCity env ip loc).1.CountryCode =
      match env.cityReader with
      | none => loc.CountryCode
      | some cityReader =>
        match cityReader ip with
        | .error _ => loc.CountryCode
        | .ok record => record.CountryIsoCode := by
  unfold getGeoCity
  cases env.cityReader with
  | none => rfl
  | some rd =>
    simp only
    cases rd ip with
    | error e => rfl
    | ok record =>
      simp only
      cases record.Subdivisions <;> simp only <;> split_ifs <;> rfl

/-- The `CountryCode` that `getGeo` returns: the sentinel unless the address
parses, the city database is configured and the lookup returns a record, in
which case it is the ISO code of the record, empty or not. -/
theorem getGeo_countryCode (env : GeoEnv) (ipStr : String) :
    (getGeo env ipStr).CountryCode =
      match env.ParseIP ipStr with
      | none => "XX"
      | some ip =>
        match env.cityReader with
        | none => "XX"
        | some cityReader =>
          match cityReader ip with
          | .error _ => "XX"
          | .ok record => record.CountryIsoCode := by
  unfold getGeo getGeoTraced
  cases env.ParseIP ipStr with
  | none => rfl
  | some ip =>
    simp only
    rw [(getGeoOrg_fields env ip _).2, getGeoCity_countryCode]

/-- Claim C7, the code at the failing input: the address parses, the city
lookup succeeds with a record whose country ISO code is empty, and `getGeo`
returns the empty string as `CountryCode` (while `Details` keeps its sentinel). -/
theorem getGeo_country_code_empty_on_record_without_iso :
    (sampleGeoEnv.ParseIP "192.0.2.1").isSome = true ∧
    (getGeo sampleGeoEnv "192.0.2.1").CountryCode = "" ∧
    (getGeo sampleGeoEnv "192.0.2.1").Details = "Unknown" := by
  decide

/-- Claim C8: for an address string that does not parse, whatever the two
database readers are, `getGeo` returns the location with `Details = "Unknown"`,
`CountryCode = "XX"` and every other field empty, and makes no lookup. -/
theorem getGeo_unparseable (env : GeoEnv) (ipStr : String)
    (hparse : env.ParseIP ipStr = none) :
    getGeoTraced env ipStr =
      ({ Org := "", Details := "Unknown", CountryCode := "XX", City := "", Country := "",
         State := "" }, []) ∧
    getGeo env ipStr =
      { Org := "", Details := "Unknown", CountryCode := "XX", City := "", Country := "",
        State := "" } := by
  simp only [getGeo, getGeoTraced, hparse, and_self]

theorem getGeo_unparseable_witness :
    sampleGeoEnv.ParseIP "not-an-ip" = none ∧
    sampleGeoEnv.cityReader.isSome = true ∧ sampleGeoEnv.orgReader.isSome = true ∧
    getGeoTraced sampleGeoEnv "not-an-ip" =
      ({ Org := "", Details := "Unknown", CountryCode := "XX", City := "", Country := "",
         State := "" }, []) :=
  ⟨by decide, by decide, by decide,
    (getGeo_unparseable sampleGeoEnv "not-an-ip" (by decide)).1⟩

/-! ## `path.Clean` -/

theorem strings.splitChars_ne_nil (sep : Char) (l : List Char) :
    strings.splitChars sep l ≠ [] := by
  cases l with
  | nil => simp [strings.splitChars]
  | cons c cs =>
    unfold strings.splitChars
    split_ifs
    · simp
    · split <;> simp

theorem strings.splitChars_cons_sep (sep : Char) (l : List Char) :
    strings.splitChars sep (sep :: l) = [] :: strings.splitChars sep l := by
  simp [strings.splitChars]

theorem strings.splitChars_cons_ne (sep c : Char) (l : List Char) (h : c ≠ sep) :
    strings.splitChars sep (c :: l) =
      (c :: (strings.splitChars sep l).headD []) :: (strings.splitChars sep l).tail := by
  simp only [strings.splitChars, h, if_false]
  cases hs : strings.splitChars sep l with
  | nil => exact absurd hs (strings.splitChars_ne_nil sep l)
  | cons p ps => rfl

theorem strings.splitChars_eq (sep : Char) (l : List Char) :
    strings.splitChars sep l =
      l.takeWhile (fun x => x != sep) ::
        (match l.dropWhile (fun x => x != sep) with
          | [] => []
          | _ :: t => strings.splitChars sep t) := by
  induction l with
  | nil => rfl
  | cons c cs ih =>
    by_cases h : c = sep
    · subst h
      simp [strings.splitChars]
    · have hb : (c != sep) = true := by simpa using h
      rw [strings.splitChars_cons_ne sep c cs h, ih]
      simp [List.takeWhile_cons, List.dropWhile_cons, hb]

theorem dropWhile_bne_head (sep : Char) (l : List Char) (x : Char) (t : List Char)
    (h : l.dropWhile (fun y => y != sep) = x :: t) : x = sep := by
  have hne : l.dropWhile (fun y => y != sep) ≠ [] := by rw [h]; simp
  have := List.head_dropWhile_not (fun y => y != sep) l hne
  simp only [h, List.head_cons] at this
  simpa using this

theorem takeWhile_bne_eq_nil_iff (sep : Char) (l : List Char) :
    l.takeWhile (fun x => x != sep) = [] ↔ (l = [] ∨ l.head? = some sep) := by
  cases l with
  | nil => simp
  | cons c cs =>
    by_cases h : c = sep
    · simp [List.takeWhile_cons, h]
    · have hb : (c != sep) = true := by simpa using h
      simp [List.takeWhile_cons, hb, h]

theorem dropWhile_bne_of_nil_or_head (sep : Char) (l : List Char)
    (h : l = [] ∨ l.head? = some sep) : l.dropWhile (fun x => x != sep) = l := by
  cases l with
  | nil => rfl
  | cons c cs =>
    have : c = sep := by simpa using h
    simp [List.dropWhile_cons, this]

theorem path.cleanLoop_round (rooted : Bool) (fuel : Nat) (c : Char) (rest1 out : List Char)
    (dotdot : Nat) (hc : c ≠ '/') :
    path.cleanLoop rooted (fuel + 1) (c :: rest1) out dotdot =
      path.cleanLoop rooted fuel ((c :: rest1).dropWhile (fun x => x != '/'))
        (path.stepElem rooted (out, dotdot) ((c :: rest1).takeWhile (fun x => x != '/'))).1
        (path.stepElem rooted (out, dotdot) ((c :: rest1).takeWhile (fun x => x != '/'))).2 := by
  have hb : (c != '/') = true := by simpa using hc
  have htk : (c :: rest1).takeWhile (fun x => x != '/')
      = c :: rest1.takeWhile (fun x => x != '/') := by
    simp [List.takeWhile_cons, hb]
  have hdr : (c :: rest1).dropWhile (fun x => x != '/')
      = rest1.dropWhile (fun x => x != '/') := by
    simp [List.dropWhile_cons, hb]
  by_cases hA : c = '.' ∧ (rest1 = [] ∨ rest1.head? = some '/')
  · -- the `.` element
    have h1 : rest1.takeWhile (fun x => x != '/') = [] :=
      (takeWhile_bne_eq_nil_iff '/' rest1).mpr hA.2
    have h2 := dropWhile_bne_of_nil_or_head '/' rest1 hA.2
    rw [htk, hdr, h1, h2, path.cleanLoop]
    simp only [if_neg hc, if_pos hA]
    simp [path.stepElem, hA.1]
  · by_cases hB : c = '.' ∧ rest1.head? = some '.' ∧
        (rest1.tail = [] ∨ rest1.tail.head? = some '/')
    · -- the `..` element
      have htk2 : (c :: rest1).takeWhile (fun x => x != '/') = ['.', '.'] ∧
          (c :: rest1).dropWhile (fun x => x != '/') = rest1.tail := by
        obtain ⟨hc1, hh, ht⟩ := hB
        cases rest1 with
        | nil => simp at hh
        | cons d rest2 =>
          have hd : d = '.' := by simpa using hh
          simp only [List.tail_cons] at ht
          have h1 : rest2.takeWhile (fun x => x != '/') = [] :=
            (takeWhile_bne_eq_nil_iff '/' rest2).mpr ht
          have h2 := dropWhile_bne_of_nil_or_head '/' rest2 ht
          have hdot : (('.' : Char) != '/') = true := by decide
          subst hd
          subst hc1
          simp only [List.takeWhile_cons, List.dropWhile_cons, hdot, if_true, h1, h2,
            List.tail_cons, and_self]
      rw [htk2.1, htk2.2, path.cleanLoop]
      simp only [if_neg hc, if_neg hA, if_pos hB]
      have e1 : ¬ (['.', '.'] = ([] : List Char) ∨ ['.', '.'] = ['.']) := by decide
      simp only [path.stepElem, e1, if_false, if_true]
      split_ifs <;> rfl
    · -- a real path element
      rw [htk, hdr]
      have hne1 : ¬ (c :: rest1.takeWhile (fun x => x != '/') = [] ∨
          c :: rest1.takeWhile (fun x => x != '/') = ['.']) := by
        intro h
        rcases h with h | h
        · simp at h
        · simp only [List.cons.injEq] at h
          exact hA ⟨h.1, (takeWhile_bne_eq_nil_iff '/' rest1).mp h.2⟩
      have hne2 : ¬ (c :: rest1.takeWhile (fun x => x != '/') = ['.', '.']) := by
        intro h
        simp only [List.cons.injEq] at h
        obtain ⟨h1, h2⟩ := h
        cases rest1 with
        | nil => simp at h2
        | cons d rest2 =>
          by_cases hd : d = '/'
          · simp [List.takeWhile_cons, hd] at h2
          · have hdb : (d != '/') = true := by simpa using hd
            simp only [List.takeWhile_cons, hdb, if_true, List.cons.injEq] at h2
            exact hB ⟨h1, by simp [h2.1],
              by simpa using (takeWhile_bne_eq_nil_iff '/' rest2).mp h2.2⟩
      rw [path.cleanLoop]
      simp only [if_neg hc, if_neg hA, if_neg hB, htk, hdr]
      simp only [path.stepElem, hne1, hne2, if_false]

theorem path.stepElem_nil (rooted : Bool) (st : List Char × Nat) :
    path.stepElem rooted st [] = st := by
  simp [path.stepElem]

theorem path.cleanLoop_eq_foldl (rooted : Bool) (fuel : Nat) :
    ∀ (rest out : List Char) (dotdot : Nat), rest.length ≤ fuel →
      path.cleanLoop rooted fuel rest out dotdot =
        ((strings.splitChars '/' rest).foldl (path.stepElem rooted) (out, dotdot)).1 := by
  induction fuel with
  | zero =>
    intro rest out dotdot h
    have : rest = [] := List.length_eq_zero.mp (Nat.le_zero.mp h)
    subst this
    simp [path.cleanLoop, strings.splitChars, path.stepElem_nil]
  | succ fuel ih =>
    intro rest out dotdot h
    cases rest with
    | nil => simp [path.cleanLoop, strings.splitChars, path.stepElem_nil]
    | cons c rest1 =>
      have hlen : rest1.length ≤ fuel := by simpa using h
      by_cases hc : c = '/'
      · subst hc
        rw [strings.splitChars_cons_sep, List.foldl_cons, path.stepElem_nil,
          ← ih rest1 out dotdot hlen, path.cleanLoop]
        simp
      · rw [path.cleanLoop_round rooted fuel c rest1 out dotdot hc,
          strings.splitChars_eq '/' (c :: rest1), List.foldl_cons]
        have hdl : ((c :: rest1).dropWhile (fun x => x != '/')).length ≤ fuel := by
          have h1 := (List.dropWhile_suffix (fun x => x != '/') (l := c :: rest1)).length_le
          have hb : (c != '/') = true := by simpa using hc
          have h2 : (c :: rest1).dropWhile (fun x => x != '/')
              = rest1.dropWhile (fun x => x != '/') := by
            simp [List.dropWhile_cons, hb]
          rw [h2]
          exact le_trans
            (List.dropWhile_suffix (fun x => x != '/') (l := rest1)).length_le hlen
        rw [ih _ _ _ hdl]
        cases hd : (c :: rest1).dropWhile (fun x => x != '/') with
        | nil => simp [strings.splitChars, path.stepElem_nil]
        | cons x t =>
          have hx := dropWhile_bne_head '/' _ x t hd
          subst hx
          rw [strings.splitChars_cons_sep, List.foldl_cons, path.stepElem_nil]

/-! ### The buffer holds a stack of path elements -/

theorem path.joinSlash_append_singleton (l : List (List Char)) (e : List Char) :
    path.joinSlash (l ++ [e]) = if l = [] then e else path.joinSlash l ++ '/' :: e := by
  induction l with
  | nil => simp [path.joinSlash]
  | cons a l ih =>
    cases l with
    | nil => simp [path.joinSlash]
    | cons b l =>
      have e1 : a :: b :: l ++ [e] = a :: b :: (l ++ [e]) := rfl
      have e2 : b :: l ++ [e] = b :: (l ++ [e]) := rfl
      rw [e1, path.joinSlash, ← e2, ih]
      simp [path.joinSlash]

theorem path.joinSlash_eq_nil_iff (l : List (List Char)) (h : ∀ e ∈ l, e ≠ []) :
    path.joinSlash l = [] ↔ l = [] := by
  cases l with
  | nil => simp [path.joinSlash]
  | cons a l =>
    have ha : a ≠ [] := h a (List.mem_cons_self _ _)
    cases l with
    | nil => simp [path.joinSlash, ha]
    | cons b l => simp [path.joinSlash, ha]

theorem path.backtrack_scan (X Y : List Char) (dotdot : Nat) (hdd : dotdot ≤ X.length)
    (hstop : X.length = dotdot ∨ Y.head? = some '/') :
    ∀ k : Nat, (∀ i : Nat, 1 ≤ i → i ≤ k → Y.get? i ≠ some '/') →
      path.backtrack (X ++ Y) dotdot (X.length + k) = X.length := by
  intro k
  induction k with
  | zero =>
    intro _
    cases hX : X.length with
    | zero => simp [path.backtrack]
    | succ w =>
      simp only [Nat.add_zero, path.backtrack]
      have : ¬ (w + 1 > dotdot ∧ (X ++ Y).get? (w + 1) ≠ some '/') := by
        rintro ⟨h1, h2⟩
        rcases hstop with h | h
        · omega
        · apply h2
          rw [← hX, List.get?_eq_getElem?, List.getElem?_append_right (le_refl _)]
          simpa [List.head?_eq_getElem?] using h
      rw [if_neg this]
  | succ k ih =>
    intro hY
    have hcond : X.length + (k + 1) > dotdot ∧
        (X ++ Y).get? (X.length + (k + 1)) ≠ some '/' := by
      refine ⟨by omega, ?_⟩
      rw [List.get?_eq_getElem?, List.getElem?_append_right (by omega)]
      have := hY (k + 1) (by omega) (le_refl _)
      rw [List.get?_eq_getElem?] at this
      simpa using this
    have : X.length + (k + 1) = (X.length + k) + 1 := by omega
    rw [this, path.backtrack, ← this, if_pos hcond]
    exact ih (fun i h1 h2 => hY i h1 (by omega))

theorem path.backtrack_take (X Y : List Char) (dotdot : Nat) (hdd : dotdot ≤ X.length)
    (hY : Y ≠ []) (hstop : X.length = dotdot ∨ Y.head? = some '/')
    (htail : ∀ c ∈ Y.tail, c ≠ '/') :
    (X ++ Y).take (path.backtrack (X ++ Y) dotdot ((X ++ Y).length - 1)) = X := by
  obtain ⟨y, ys, rfl⟩ := List.exists_cons_of_ne_nil hY
  have hlen : (X ++ y :: ys).length - 1 = X.length + ys.length := by simp
  rw [hlen, path.backtrack_scan X (y :: ys) dotdot hdd hstop ys.length]
  · simp
  · intro i h1 h2 hget
    obtain ⟨j, rfl⟩ : ∃ j, i = j + 1 := ⟨i - 1, by omega⟩
    simp only [List.get?_cons_succ] at hget
    exact htail '/' (by simpa using List.get?_mem hget) rfl

theorem path.joinSlash_length_le (l m : List (List Char)) :
    (path.joinSlash l).length ≤ (path.joinSlash (l ++ m)).length := by
  induction m using List.reverseRecOn with
  | nil => simp
  | append_singleton m e ih =>
    rw [← List.append_assoc, path.joinSlash_append_singleton]
    split_ifs with h
    · have hl : l = [] := (List.append_eq_nil.mp h).1
      simp [hl, path.joinSlash]
    · simp only [List.length_append, List.length_cons]
      omega

theorem path.stackOf_ne_nil (dots : Nat) (names : List (List Char))
    (hn : ∀ n ∈ names, n ≠ []) : ∀ e ∈ path.stackOf dots names, e ≠ [] := by
  intro e he
  rcases List.mem_append.mp he with h | h
  · rw [(List.mem_replicate.mp h).2]
    simp
  · exact hn e h

theorem path.stackOf_append (dots : Nat) (a b : List (List Char)) :
    path.stackOf dots (a ++ b) = path.stackOf dots a ++ b := by
  simp [path.stackOf, List.append_assoc]

theorem path.Holds_init (rooted : Bool) :
    path.Holds rooted (path.lead rooted, (path.lead rooted).length) (0, []) := by
  refine ⟨?_, ?_, fun _ => rfl, ?_⟩
  · simp [path.stackOf, path.joinSlash]
  · simp [path.stackOf, path.joinSlash]
  · intro n hn
    simp at hn

theorem path.Holds_dotdot_pop (rooted : Bool) (out : List Char) (dotdot dots : Nat)
    (names : List (List Char)) (h : path.Holds rooted (out, dotdot) (dots, names))
    (hne : names ≠ []) :
    out.length > dotdot ∧
    out.take (path.backtrack out dotdot (out.length - 1))
      = path.lead rooted ++ path.joinSlash (path.stackOf dots names.dropLast) := by
  have hnames : names = names.dropLast ++ [names.getLast hne] :=
    (List.dropLast_append_getLast hne).symm
  have hlast := h.names_ok (names.getLast hne) (List.getLast_mem hne)
  have hout : out = (path.lead rooted ++ path.joinSlash (path.stackOf dots names.dropLast)) ++
      (if path.stackOf dots names.dropLast = [] then names.getLast hne
        else '/' :: names.getLast hne) := by
    have := h.out_eq
    simp only at this
    rw [this]
    conv_lhs => rw [hnames, path.stackOf_append, path.joinSlash_append_singleton]
    split_ifs with hs
    · simp [hs, path.joinSlash]
    · simp
  have hdd : dotdot ≤
      (path.lead rooted ++ path.joinSlash (path.stackOf dots names.dropLast)).length := by
    have := h.dotdot_eq
    simp only at this
    rw [this, List.length_append, List.length_append]
    have hle := path.joinSlash_length_le (path.stackOf dots []) names.dropLast
    have he : path.stackOf dots [] ++ names.dropLast = path.stackOf dots names.dropLast := by
      simp [path.stackOf]
    rw [he] at hle
    omega
  have hY : (if path.stackOf dots names.dropLast = [] then names.getLast hne
        else '/' :: names.getLast hne) ≠ [] := by
    split_ifs
    · exact hlast.1
    · simp
  have hstop : (path.lead rooted ++ path.joinSlash (path.stackOf dots names.dropLast)).length
        = dotdot ∨
      (if path.stackOf dots names.dropLast = [] then names.getLast hne
        else '/' :: names.getLast hne).head? = some '/' := by
    by_cases hs : path.stackOf dots names.dropLast = []
    · left
      have := h.dotdot_eq
      simp only at this
      have hd : dots = 0 ∧ names.dropLast = [] := by
        simpa [path.stackOf, List.replicate_eq_nil_iff] using hs
      rw [this, hs, hd.1]
      simp [path.stackOf]
    · right
      simp [hs]
  have htail : ∀ c ∈ (if path.stackOf dots names.dropLast = [] then names.getLast hne
        else '/' :: names.getLast hne).tail, c ≠ '/' := by
    intro c hc hc2
    subst hc2
    split_ifs at hc
    · exact hlast.2.1 (List.mem_of_mem_tail hc)
    · exact hlast.2.1 (by simpa using hc)
  constructor
  · rw [hout, List.length_append]
    have : 0 < (if path.stackOf dots names.dropLast = [] then names.getLast hne
        else '/' :: names.getLast hne).length := List.length_pos.mpr hY
    omega
  · rw [hout]
    exact path.backtrack_take _ _ dotdot hdd hY hstop htail

theorem path.Holds_length_of_no_names (rooted : Bool) (out : List Char) (dotdot dots : Nat)
    (h : path.Holds rooted (out, dotdot) (dots, [])) : out.length = dotdot := by
  have h1 := h.out_eq
  have h2 := h.dotdot_eq
  simp only at h1 h2
  rw [h1, h2]

theorem path.Holds_step (rooted : Bool) (buf : List Char × Nat) (abs : Nat × List (List Char))
    (e : List Char) (h : path.Holds rooted buf abs) (he : '/' ∉ e) :
    path.Holds rooted (path.stepElem rooted buf e) (path.absStep rooted abs e) := by
  obtain ⟨out, dotdot⟩ := buf
  obtain ⟨dots, names⟩ := abs
  by_cases h1 : e = [] ∨ e = ['.']
  · simp only [path.stepElem, path.absStep, h1, if_true]
    exact h
  · by_cases h2 : e = ['.', '.']
    · subst h2
      have e1 : ¬ (['.', '.'] = ([] : List Char) ∨ ['.', '.'] = ['.']) := by decide
      simp only [path.stepElem, path.absStep, e1, if_false, if_true]
      by_cases hn : names = []
      · subst hn
        have hlen := path.Holds_length_of_no_names rooted out dotdot dots h
        have hgt : ¬ out.length > dotdot := by omega
        simp only [hgt, if_false, ne_eq, not_true_eq_false]
        cases rooted with
        | true => simpa using h
        | false =>
          simp only [Bool.not_false, if_true]
          have hout : out = path.joinSlash (List.replicate dots ['.', '.']) := by
            have := h.out_eq
            simpa [path.lead, path.stackOf] using this
          have hnil : out.length > 0 ↔ List.replicate dots ['.', '.'] ≠ [] := by
            show 0 < out.length ↔ _
            rw [hout, List.length_pos, ne_eq, ne_eq, path.joinSlash_eq_nil_iff]
            intro x hx
            rw [(List.mem_replicate.mp hx).2]
            simp
          have hnew : (if out.length > 0 then out ++ ['/'] else out) ++ ['.', '.']
              = path.joinSlash (path.stackOf (dots + 1) []) := by
            simp only [path.stackOf, List.append_nil, List.replicate_succ',
              path.joinSlash_append_singleton]
            by_cases hr : List.replicate dots ['.', '.'] = []
            · have : ¬ out.length > 0 := fun hc => (hnil.mp hc) hr
              rw [if_neg this, if_pos hr, hout, hr]
              simp [path.joinSlash]
            · rw [if_pos (hnil.mpr hr), if_neg hr, hout]
              simp
          refine ⟨?_, ?_, fun hc => Bool.noConfusion hc, ?_⟩
          · simp only [path.lead, Bool.false_eq_true, if_false, List.nil_append]
            exact hnew
          · simp only [path.lead, Bool.false_eq_true, if_false, List.nil_append]
            rw [hnew]
          · intro n hn
            simp at hn
      · obtain ⟨hgt, htake⟩ := path.Holds_dotdot_pop rooted out dotdot dots names h hn
        simp only [hgt, if_true, ne_eq, hn, not_false_eq_true]
        refine ⟨htake, h.dotdot_eq, h.rooted_dots, ?_⟩
        intro n hmem
        exact h.names_ok n (List.mem_of_mem_dropLast hmem)
    · simp only [path.stepElem, path.absStep, h1, h2, if_false]
      have hstack : ∀ x ∈ path.stackOf dots names, x ≠ [] :=
        path.stackOf_ne_nil dots names (fun n hn => (h.names_ok n hn).1)
      have hout := h.out_eq
      simp only at hout
      have hcond : ((rooted = true ∧ out.length ≠ 1) ∨ (rooted = false ∧ out.length ≠ 0))
          ↔ path.stackOf dots names ≠ [] := by
        rw [hout, ne_eq (path.stackOf dots names), ← path.joinSlash_eq_nil_iff _ hstack]
        cases rooted with
        | true => simp [path.lead]
        | false => simp [path.lead]
      refine ⟨?_, h.dotdot_eq, h.rooted_dots, ?_⟩
      · simp only
        rw [path.stackOf_append, path.joinSlash_append_singleton]
        by_cases hs : path.stackOf dots names = []
        · rw [if_neg (fun hc => (hcond.mp hc) hs), if_pos hs, hout, hs]
          simp [path.joinSlash]
        · rw [if_pos (hcond.mpr hs), if_neg hs, hout]
          simp
      · intro n hmem
        rcases List.mem_append.mp hmem with hm | hm
        · exact h.names_ok n hm
        · have : n = e := by simpa using hm
          subst this
          exact ⟨fun hc => h1 (Or.inl hc), he, fun hc => h1 (Or.inr hc), h2⟩

/-! ### Cleaning a path does not change what it names -/

theorem mk_inj (a b : List Char) : String.mk a = String.mk b ↔ a = b :=
  ⟨fun h => congrArg String.data h, fun h => by rw [h]⟩

theorem mk_eq_empty_iff (e : List Char) : (String.mk e = "") ↔ e = [] := by
  have : ("" : String) = String.mk [] := rfl
  rw [this, mk_inj]

theorem mk_eq_dot_iff (e : List Char) : (String.mk e = ".") ↔ e = ['.'] := by
  have : ("." : String) = String.mk ['.'] := rfl
  rw [this, mk_inj]

theorem mk_eq_dotdot_iff (e : List Char) : (String.mk e = "..") ↔ e = ['.', '.'] := by
  have : (".." : String) = String.mk ['.', '.'] := rfl
  rw [this, mk_inj]

theorem walk_mk (dir : List String) (e : List Char) :
    walk dir (String.mk e) =
      if e = [] ∨ e = ['.'] then dir
      else if e = ['.', '.'] then dir.dropLast
      else dir ++ [String.mk e] := by
  simp only [walk, mk_eq_empty_iff, mk_eq_dot_iff, mk_eq_dotdot_iff]

theorem path.sem_step (rooted : Bool) (start : List String) (abs : Nat × List (List Char))
    (e : List Char) (hstart : rooted = true → start = [] ∧ abs.1 = 0)
    (hnames : ∀ n ∈ abs.2, n ≠ [] ∧ '/' ∉ n ∧ n ≠ ['.'] ∧ n ≠ ['.', '.']) :
    path.sem start (path.absStep rooted abs e) = walk (path.sem start abs) (String.mk e) := by
  obtain ⟨dots, names⟩ := abs
  rw [walk_mk]
  by_cases h1 : e = [] ∨ e = ['.']
  · simp only [path.absStep, h1, if_true]
  · by_cases h2 : e = ['.', '.']
    · subst h2
      have e1 : ¬ (['.', '.'] = ([] : List Char) ∨ ['.', '.'] = ['.']) := by decide
      simp only [path.absStep, e1, if_false, if_true]
      by_cases hn : names = []
      · subst hn
        simp only [ne_eq, not_true_eq_false, if_false]
        cases rooted with
        | true =>
          obtain ⟨hs, hd⟩ := hstart rfl
          simp only at hd
          subst hs
          subst hd
          simp [path.sem, path.stackOf]
        | false =>
          simp only [Bool.not_false, if_true, path.sem, path.stackOf, List.append_nil,
            List.replicate_succ', List.map_append, List.foldl_append, List.map_cons,
            List.map_nil, List.foldl_cons, List.foldl_nil]
          rw [walk_mk]
          simp
      · simp only [ne_eq, hn, not_false_eq_true, if_true]
        have hd : names = names.dropLast ++ [names.getLast hn] :=
          (List.dropLast_append_getLast hn).symm
        have hlast := hnames (names.getLast hn) (List.getLast_mem hn)
        have hw : path.sem start (dots, names) =
            path.sem start (dots, names.dropLast) ++ [String.mk (names.getLast hn)] := by
          conv_lhs => rw [hd]
          simp only [path.sem, path.stackOf_append, List.map_append, List.foldl_append,
            List.map_cons, List.map_nil, List.foldl_cons, List.foldl_nil]
          rw [walk_mk]
          simp [hlast.1, hlast.2.2.1, hlast.2.2.2]
        rw [hw]
        simp
    · simp only [path.absStep, h1, h2, if_false]
      simp only [path.sem, path.stackOf_append, List.map_append, List.foldl_append,
        List.map_cons, List.map_nil, List.foldl_cons, List.foldl_nil]
      rw [walk_mk]
      simp [h1, h2]

theorem path.foldl_steps (rooted : Bool) (start : List String) (es : List (List Char))
    (hes : ∀ e ∈ es, '/' ∉ e) :
    ∀ (buf : List Char × Nat) (abs : Nat × List (List Char)),
      path.Holds rooted buf abs → (rooted = true → start = []) →
      path.Holds rooted (es.foldl (path.stepElem rooted) buf)
        (es.foldl (path.absStep rooted) abs) ∧
      path.sem start (es.foldl (path.absStep rooted) abs)
        = (es.map String.mk).foldl walk (path.sem start abs) := by
  induction es with
  | nil =>
    intro buf abs h _
    exact ⟨h, rfl⟩
  | cons e es ih =>
    intro buf abs h hs
    have he : '/' ∉ e := hes e (List.mem_cons_self _ _)
    have h' := path.Holds_step rooted buf abs e h he
    have := ih (fun x hx => hes x (List.mem_cons_of_mem _ hx)) _ _ h' hs
    refine ⟨this.1, ?_⟩
    rw [List.foldl_cons, this.2, List.map_cons, List.foldl_cons,
      path.sem_step rooted start abs e (fun hr => ⟨hs hr, h.rooted_dots hr⟩) h.names_ok]

theorem strings.splitChars_no_sep (sep : Char) (l : List Char) :
    ∀ e ∈ strings.splitChars sep l, sep ∉ e := by
  induction l with
  | nil =>
    intro e he
    simp only [strings.splitChars, List.mem_singleton] at he
    simp [he]
  | cons c cs ih =>
    intro e he
    by_cases h : c = sep
    · subst h
      rw [strings.splitChars_cons_sep] at he
      rcases List.mem_cons.mp he with h1 | h1
      · simp [h1]
      · exact ih e h1
    · rw [strings.splitChars_cons_ne sep c cs h] at he
      rcases List.mem_cons.mp he with h1 | h1
      · subst h1
        intro hm
        rcases List.mem_cons.mp hm with h2 | h2
        · exact h h2.symm
        · cases hs : strings.splitChars sep cs with
          | nil => simp [hs] at h2
          | cons p ps =>
            rw [hs] at h2
            exact ih p (by rw [hs]; exact List.mem_cons_self _ _) (by simpa using h2)
      · exact ih e (List.mem_of_mem_tail h1)

theorem strings.splitChars_of_no_sep (sep : Char) (l : List Char) (h : sep ∉ l) :
    strings.splitChars sep l = [l] := by
  induction l with
  | nil => rfl
  | cons c cs ih =>
    have hc : c ≠ sep := fun hc => h (by simp [hc])
    have hcs : sep ∉ cs := fun hm => h (List.mem_cons_of_mem _ hm)
    rw [strings.splitChars_cons_ne sep c cs hc, ih hcs]
    rfl

theorem strings.splitChars_append_sep (sep : Char) (a b : List Char) :
    strings.splitChars sep (a ++ sep :: b)
      = strings.splitChars sep a ++ strings.splitChars sep b := by
  induction a with
  | nil => simp [strings.splitChars]
  | cons c cs ih =>
    by_cases h : c = sep
    · subst h
      rw [List.cons_append, strings.splitChars_cons_sep, strings.splitChars_cons_sep, ih]
      rfl
    · rw [List.cons_append, strings.splitChars_cons_ne sep c _ h,
        strings.splitChars_cons_ne sep c cs h, ih]
      cases hs : strings.splitChars sep cs with
      | nil => exact absurd hs (strings.splitChars_ne_nil sep cs)
      | cons p ps => rfl

theorem path.split_joinSlash (l : List (List Char)) (hne : l ≠ [])
    (h : ∀ e ∈ l, '/' ∉ e) : strings.splitChars '/' (path.joinSlash l) = l := by
  induction l with
  | nil => exact absurd rfl hne
  | cons a l ih =>
    have ha : '/' ∉ a := h a (List.mem_cons_self _ _)
    cases l with
    | nil => exact strings.splitChars_of_no_sep '/' a ha
    | cons b l =>
      rw [path.joinSlash, strings.splitChars_append_sep,
        ih (by simp) (fun e he => h e (List.mem_cons_of_mem _ he)),
        strings.splitChars_of_no_sep '/' a ha]
      rfl

theorem path.stackOf_no_sep (abs : Nat × List (List Char))
    (hn : ∀ n ∈ abs.2, n ≠ [] ∧ '/' ∉ n ∧ n ≠ ['.'] ∧ n ≠ ['.', '.']) :
    ∀ e ∈ path.stackOf abs.1 abs.2, '/' ∉ e := by
  intro e he
  rcases List.mem_append.mp he with h | h
  · rw [(List.mem_replicate.mp h).2]
    decide
  · exact (hn e h).2.1

theorem strings.HasPrefix_slash (s : String) :
    strings.HasPrefix s "/" = true ↔ s.data.head? = some '/' := by
  unfold strings.HasPrefix
  have : ("/" : String).data = ['/'] := rfl
  rw [this]
  cases s.data with
  | nil => simp [List.isPrefixOf]
  | cons c cs =>
    simp only [List.isPrefixOf, List.head?_cons, Option.some.injEq, Bool.and_eq_true,
      beq_iff_eq]
    constructor
    · intro h; exact h.1.symm
    · intro h
      refine ⟨h.symm, ?_⟩
      cases cs <;> trivial

theorem strings.Split_data (s : String) (sep : Char) :
    strings.Split s sep = (strings.splitChars sep s.data).map String.mk := rfl

theorem path.Clean_rooted (rest1 : List Char) :
    ∃ names : List (List Char),
      (∀ n ∈ names, n ≠ [] ∧ '/' ∉ n ∧ n ≠ ['.'] ∧ n ≠ ['.', '.']) ∧
      path.Clean ⟨'/' :: rest1⟩ = ⟨'/' :: path.joinSlash names⟩ ∧
      ((strings.splitChars '/' rest1).map String.mk).foldl walk []
        = (names.map String.mk).foldl walk [] := by
  have hes := strings.splitChars_no_sep '/' rest1
  have hf := path.foldl_steps true [] (strings.splitChars '/' rest1) hes
    (path.lead true, (path.lead true).length) (0, []) (path.Holds_init true) (fun _ => rfl)
  obtain ⟨hh, hsem⟩ := hf
  have hd := hh.rooted_dots rfl
  refine ⟨((strings.splitChars '/' rest1).foldl (path.absStep true) (0, [])).2,
    hh.names_ok, ?_, ?_⟩
  · have hne : (⟨'/' :: rest1⟩ : String) ≠ "" := by
      intro hc
      have := congrArg String.data hc
      simp at this
    have hout := hh.out_eq
    rw [hd] at hout
    simp only [path.lead, if_true, path.stackOf, List.replicate_zero, List.nil_append,
      List.singleton_append, List.length_singleton] at hout
    have hloop := path.cleanLoop_eq_foldl true (('/' :: rest1).length) rest1 ['/'] 1
      (by simp)
    simp only [path.Clean, hne, if_false, List.head?_cons, decide_True, if_true,
      List.tail_cons]
    rw [hloop, hout]
    simp
  · have h0 : path.sem [] (0, []) = [] := rfl
    rw [h0] at hsem
    rw [← hsem]
    simp only [path.sem, hd, path.stackOf, List.replicate_zero, List.nil_append]

theorem path.Clean_unrooted (c : Char) (rest1 : List Char) (hc : c ≠ '/')
    (cwd : List String) :
    ∃ stack : List (List Char),
      (∀ e ∈ stack, e ≠ [] ∧ '/' ∉ e) ∧
      path.Clean ⟨c :: rest1⟩ = (if stack = [] then "." else ⟨path.joinSlash stack⟩) ∧
      ((strings.splitChars '/' (c :: rest1)).map String.mk).foldl walk cwd
        = (stack.map String.mk).foldl walk cwd := by
  have hes := strings.splitChars_no_sep '/' (c :: rest1)
  have hf := path.foldl_steps false cwd (strings.splitChars '/' (c :: rest1)) hes
    (path.lead false, (path.lead false).length) (0, []) (path.Holds_init false)
    (fun h => Bool.noConfusion h)
  obtain ⟨hh, hsem⟩ := hf
  have hne_all : ∀ e ∈ path.stackOf
      ((strings.splitChars '/' (c :: rest1)).foldl (path.absStep false) (0, [])).1
      ((strings.splitChars '/' (c :: rest1)).foldl (path.absStep false) (0, [])).2,
        e ≠ [] :=
    path.stackOf_ne_nil _ _ (fun n hn => (hh.names_ok n hn).1)
  refine ⟨path.stackOf
      ((strings.splitChars '/' (c :: rest1)).foldl (path.absStep false) (0, [])).1
      ((strings.splitChars '/' (c :: rest1)).foldl (path.absStep false) (0, [])).2,
    fun e he => ⟨hne_all e he, path.stackOf_no_sep _ hh.names_ok e he⟩, ?_, ?_⟩
  · have hne : (⟨c :: rest1⟩ : String) ≠ "" := by
      intro h
      have := congrArg String.data h
      simp at this
    have hout := hh.out_eq
    simp only [path.lead, Bool.false_eq_true, if_false, List.nil_append] at hout
    have hloop := path.cleanLoop_eq_foldl false ((c :: rest1).length) (c :: rest1) [] 0
      (le_refl _)
    have hroot : ¬ ((c :: rest1).head? = some '/') := by simpa using hc
    simp only [path.Clean, hne, if_false, hroot, decide_False, Bool.false_eq_true]
    rw [hloop]
    have hout2 : ((strings.splitChars '/' (c :: rest1)).foldl (path.stepElem false)
        (([] : List Char), 0)).1 = path.joinSlash (path.stackOf
          ((strings.splitChars '/' (c :: rest1)).foldl (path.absStep false) (0, [])).1
          ((strings.splitChars '/' (c :: rest1)).foldl (path.absStep false) (0, [])).2) :=
      hout
    rw [hout2]
    have hiff := path.joinSlash_eq_nil_iff _ hne_all
    simp only [List.length_eq_zero, hiff]
  · have h0 : path.sem cwd (0, []) = cwd := rfl
    rw [h0] at hsem
    rw [← hsem]
    rfl

theorem path.joinSlash_head (a : List Char) (l : List (List Char)) (ha : a ≠ []) :
    (path.joinSlash (a :: l)).head? = a.head? := by
  obtain ⟨x, xs, rfl⟩ := List.exists_cons_of_ne_nil ha
  cases l <;> simp [path.joinSlash]

theorem resolve_mk (cwd : List String) (l : List Char) (h : l ≠ []) :
    resolve cwd ⟨l⟩ = some (((strings.splitChars '/' l).map String.mk).foldl walk
      (if l.head? = some '/' then [] else cwd)) := by
  have hne : (⟨l⟩ : String) ≠ "" := by
    intro hc
    exact h (congrArg String.data hc)
  simp only [resolve, hne, if_false, strings.Split_data, strings.HasPrefix_slash]

/-- Cleaning a path does not change the location it names. -/
theorem resolve_Clean (cwd : List String) (p : String) (hp : p ≠ "") :
    resolve cwd (path.Clean p) = resolve cwd p := by
  obtain ⟨l⟩ := p
  cases l with
  | nil => exact absurd rfl hp
  | cons c rest1 =>
    by_cases hc : c = '/'
    · subst hc
      obtain ⟨names, hok, hclean, hsem⟩ := path.Clean_rooted rest1
      rw [hclean, resolve_mk cwd _ (by simp), resolve_mk cwd _ (by simp)]
      simp only [List.head?_cons, if_true, strings.splitChars_cons_sep, List.map_cons,
        List.foldl_cons]
      have hw : walk [] (String.mk []) = [] := by
        rw [walk_mk]; simp
      rw [hw, hsem]
      by_cases hn : names = []
      · subst hn
        simp [path.joinSlash, strings.splitChars, hw]
      · rw [path.split_joinSlash names hn (fun e he => (hok e he).2.1)]
    · obtain ⟨stack, hok, hclean, hsem⟩ := path.Clean_unrooted c rest1 hc cwd
      rw [hclean, resolve_mk cwd (c :: rest1) (by simp)]
      have hroot : ¬ ((c :: rest1).head? = some '/') := by simpa using hc
      rw [if_neg hroot, hsem]
      by_cases hs : stack = []
      · subst hs
        rw [if_pos rfl]
        have hdot : ("." : String) = ⟨['.']⟩ := rfl
        rw [hdot, resolve_mk cwd ['.'] (by simp)]
        simp [strings.splitChars, walk]
      · rw [if_neg hs]
        obtain ⟨a, t, rfl⟩ := List.exists_cons_of_ne_nil hs
        have ha := hok a (List.mem_cons_self _ _)
        have hj : path.joinSlash (a :: t) ≠ [] := by
          rw [ne_eq, path.joinSlash_eq_nil_iff _ (fun e he => (hok e he).1)]
          simp
        rw [resolve_mk cwd _ hj, path.joinSlash_head a t ha.1,
          path.split_joinSlash (a :: t) (by simp) (fun e he => (hok e he).2)]
        have hh : ¬ (a.head? = some '/') := by
          intro hx
          exact ha.2 (List.mem_of_mem_head? hx)
        rw [if_neg hh]

theorem path.Clean_ne_empty (p : String) : path.Clean p ≠ "" := by
  by_cases h1 : p = ""
  · simp only [path.Clean, h1, if_true]
    decide
  · simp only [path.Clean, h1, if_false]
    generalize (if decide (p.data.head? = some '/') = true then
      path.cleanLoop true p.data.length p.data.tail ['/'] 1
      else path.cleanLoop false p.data.length p.data [] 0) = out
    by_cases h2 : out.length = 0
    · rw [if_pos h2]
      decide
    · rw [if_neg h2]
      intro hc
      have := congrArg String.data hc
      simp only at this
      rw [this] at h2
      exact h2 rfl

/-! ## `safeStaticHandler` -/

theorem strings.containsChars_of_isPrefixOf (sub l : List Char)
    (h : sub.isPrefixOf l = true) : strings.containsChars sub l = true := by
  cases l with
  | nil => simpa [strings.containsChars] using h
  | cons c cs => simp [strings.containsChars, h]

theorem strings.containsChars_cons (sub : List Char) (c : Char) (cs : List Char)
    (h : strings.containsChars sub cs = true) : strings.containsChars sub (c :: cs) = true := by
  simp [strings.containsChars, h]

theorem strings.containsChars_of_mem_split (sep : Char) (l : List Char) :
    ∀ e ∈ strings.splitChars sep l, strings.containsChars e l = true := by
  induction l with
  | nil =>
    intro e he
    simp only [strings.splitChars, List.mem_singleton] at he
    subst he
    rfl
  | cons c cs ih =>
    intro e he
    rw [strings.splitChars_eq] at he
    rcases List.mem_cons.mp he with h1 | h1
    · subst h1
      apply strings.containsChars_of_isPrefixOf
      exact List.isPrefixOf_iff_prefix.mpr (List.takeWhile_prefix _)
    · apply strings.containsChars_cons
      by_cases hc : c = sep
      · subst hc
        simp only [List.dropWhile_cons, bne_self_eq_false, Bool.false_eq_true, if_false] at h1
        exact ih e h1
      · have hb : (c != sep) = true := by simpa using hc
        simp only [List.dropWhile_cons, hb, if_true] at h1
        have : e ∈ strings.splitChars sep cs := by
          rw [strings.splitChars_eq]
          exact List.mem_cons_of_mem _ h1
        exact ih e this

theorem strings.no_dotdot_element (s : String) (h : strings.Contains s ".." = false) :
    ∀ e ∈ strings.Split s '/', e ≠ ".." := by
  intro e he hc
  subst hc
  rw [strings.Split_data] at he
  obtain ⟨x, hx, hxe⟩ := List.mem_map.mp he
  have hx2 : x = ['.', '.'] := (mk_eq_dotdot_iff x).mp hxe
  subst hx2
  have := strings.containsChars_of_mem_split '/' s.data _ hx
  have h2 : strings.Contains s ".." = strings.containsChars ['.', '.'] s.data := rfl
  rw [h2, this] at h
  exact Bool.noConfusion h

theorem walk_prefix (dir d0 : List String) (l : List String) (hl : ∀ e ∈ l, e ≠ "..")
    (h : dir <+: d0) : dir <+: l.foldl walk d0 := by
  induction l generalizing d0 with
  | nil => exact h
  | cons e l ih =>
    rw [List.foldl_cons]
    apply ih _ (fun x hx => hl x (List.mem_cons_of_mem _ hx))
    unfold walk
    split_ifs with h1 h2
    · exact h
    · exact absurd h2 (hl e (List.mem_cons_self _ _))
    · exact h.trans (List.prefix_append _ _)

theorem resolve_join (cwd : List String) (a b : String) (ha : a ≠ "") :
    resolve cwd (a ++ "/" ++ b) =
      (resolve cwd a).map (fun dir => (strings.Split b '/').foldl walk dir) := by
  have hdata : (a ++ "/" ++ b).data = a.data ++ '/' :: b.data := by
    simp [String.data_append]
  have hane : a.data ≠ [] := by
    intro hc
    apply ha
    cases a
    simp only at hc
    rw [hc]
  have hne : a ++ "/" ++ b ≠ "" := by
    intro hc
    have := congrArg String.data hc
    rw [hdata] at this
    simp at this
  have hhead : (a.data ++ '/' :: b.data).head? = a.data.head? := by
    obtain ⟨x, xs, hx⟩ := List.exists_cons_of_ne_nil hane
    rw [hx]
    rfl
  have hpre : strings.HasPrefix (a ++ "/" ++ b) "/" = strings.HasPrefix a "/" := by
    rw [Bool.eq_iff_iff, strings.HasPrefix_slash, strings.HasPrefix_slash, hdata, hhead]
  simp only [resolve, hne, ha, if_false, Option.map_some', hpre, strings.Split_data, hdata,
    strings.splitChars_append_sep, List.map_append, List.foldl_append]

theorem filepath.Join_two (dir rel : String) (hd : dir ≠ "") :
    filepath.Join [dir, rel] = path.Clean (dir ++ "/" ++ rel) := by
  simp [filepath.Join, filepath.Clean, List.dropWhile, hd, strings.Join]

theorem served_path_inside (cwd dir : List String) (staticDir rel : String)
    (hrel : strings.Contains rel ".." = false)
    (hdir : resolve cwd staticDir = some dir) :
    ∃ file, resolve cwd (filepath.Join [staticDir, rel]) = some file ∧ dir <+: file := by
  have hne : staticDir ≠ "" := by
    intro hc
    rw [hc] at hdir
    simp [resolve] at hdir
  have hq : staticDir ++ "/" ++ rel ≠ "" := by
    intro hc
    have := congrArg String.data hc
    simp [String.data_append] at this
  rw [filepath.Join_two staticDir rel hne, resolve_Clean cwd _ hq,
    resolve_join cwd staticDir rel hne, hdir]
  exact ⟨_, rfl, walk_prefix dir dir _ (strings.no_dotdot_element rel hrel)
    (List.prefix_refl dir)⟩

theorem http.Error_served (w : ResponseWriter) (msg : String) (code : Nat) :
    (http.Error w msg code).served = w.served := by
  unfold http.Error ResponseWriter.Write ResponseWriter.WriteHeader
  cases w.status <;> rfl

/-- What `safeStaticHandler` does on every request: it answers 404 and serves
no file when the path lacks the prefix `/static/`, answers 400 and serves no
file when the cleaned path contains `..`, and otherwise serves `staticDir`
joined with the cleaned relative path, which has no `..` element; when
`staticDir` names a directory (it is not empty), the served path names a
location below that directory, from every working directory. -/
theorem safeStaticHandler_error_or_inside (staticDir : String) (w : ResponseWriter)
    (r : Request) :
    (strings.HasPrefix r.Path "/static/" = false →
      safeStaticHandler staticDir w r = http.Error w "Not found" 404 ∧
      (safeStaticHandler staticDir w r).served = w.served ∧
      (w.status = none → (safeStaticHandler staticDir w r).status = some 404)) ∧
    (strings.HasPrefix r.Path "/static/" = true →
      strings.Contains (path.Clean ("/" ++ strings.TrimPrefix r.Path "/static/")) ".." = true →
      safeStaticHandler staticDir w r = http.Error w "Invalid path" 400 ∧
      (safeStaticHandler staticDir w r).served = w.served ∧
      (w.status = none → (safeStaticHandler staticDir w r).status = some 400)) ∧
    (strings.HasPrefix r.Path "/static/" = true →
      strings.Contains (path.Clean ("/" ++ strings.TrimPrefix r.Path "/static/")) ".." = false →
      safeStaticHandler staticDir w r =
        http.ServeFile w
          (filepath.Join [staticDir, path.Clean ("/" ++ strings.TrimPrefix r.Path "/static/")]) ∧
      (∀ e ∈ strings.Split (path.Clean ("/" ++ strings.TrimPrefix r.Path "/static/")) '/',
        e ≠ "..") ∧
      (∀ cwd dir : List String, resolve cwd staticDir = some dir →
        ∃ file,
          resolve cwd (filepath.Join
            [staticDir, path.Clean ("/" ++ strings.TrimPrefix r.Path "/static/")]) = some file ∧
          dir <+: file)) := by
  refine ⟨?_, ?_, ?_⟩
  · intro hp
    have h : safeStaticHandler staticDir w r = http.Error w "Not found" 404 := by
      simp [safeStaticHandler, hp, http.StatusNotFound]
    refine ⟨h, ?_, ?_⟩
    · rw [h, http.Error_served]
    · intro hw
      rw [h]
      exact http.Error_status w _ 404 hw
  · intro hp hc
    have h : safeStaticHandler staticDir w r = http.Error w "Invalid path" 400 := by
      simp [safeStaticHandler, hp, hc, http.StatusBadRequest]
    refine ⟨h, ?_, ?_⟩
    · rw [h, http.Error_served]
    · intro hw
      rw [h]
      exact http.Error_status w _ 400 hw
  · intro hp hc
    refine ⟨?_, strings.no_dotdot_element _ hc, ?_⟩
    · simp [safeStaticHandler, hp, hc]
    · intro cwd dir hdir
      exact served_path_inside cwd dir staticDir _ hc hdir

theorem safeStaticHandler_error_or_inside_witness :
    (safeStaticHandler "./static" ResponseWriter.new
        ⟨Header.empty, "10.0.0.1:5000", "/static/img//logo.png"⟩).served
      = [Served.File "static/img/logo.png"] ∧
    (∃ file, resolve ["srv", "app"] (filepath.Join ["./static",
        path.Clean ("/" ++ strings.TrimPrefix "/static/img//logo.png" "/static/")])
          = some file ∧ ["srv", "app", "static"] <+: file) ∧
    (safeStaticHandler "./static" ResponseWriter.new
        ⟨Header.empty, "10.0.0.1:5000", "/static/a..b"⟩).status = some 400 ∧
    (safeStaticHandler "./static" ResponseWriter.new
        ⟨Header.empty, "10.0.0.1:5000", "/favicon.ico"⟩).status = some 404 :=
  ⟨by decide,
    (safeStaticHandler_error_or_inside "./static" ResponseWriter.new
      ⟨Header.empty, "10.0.0.1:5000", "/static/img//logo.png"⟩).2.2
        (by decide) (by decide) |>.2.2 ["srv", "app"] ["srv", "app", "static"] (by decide),
    ((safeStaticHandler_error_or_inside "./static" ResponseWriter.new
      ⟨Header.empty, "10.0.0.1:5000", "/static/a..b"⟩).2.1 (by decide) (by decide)).2.2 rfl,
    ((safeStaticHandler_error_or_inside "./static" ResponseWriter.new
      ⟨Header.empty, "10.0.0.1:5000", "/favicon.ico"⟩).1 (by decide)).2.2 rfl⟩

/-- Claim C10, the code at the failing input: with `staticDir` empty (the flag
`-static ""`) the request path `/static/etc/hosts` passes both checks of
`safeStaticHandler` and the file handed to `http.ServeFile` is `/etc/hosts`:
`filepath.Join` drops the empty `staticDir`, so the served path is rooted at
`/` and lies outside the working directory `/srv/app`, under which the sibling
`serveStaticFile` serves `favicon.ico` for the same `staticDir`. -/
theorem safeStaticHandler_empty_staticDir_serves_outside :
    strings.HasPrefix "/static/etc/hosts" "/static/" = true ∧
    strings.Contains (path.Clean ("/" ++ strings.TrimPrefix "/static/etc/hosts" "/static/"))
      ".." = false ∧
    (safeStaticHandler "" ResponseWriter.new
        ⟨Header.empty, "10.0.0.1:5000", "/static/etc/hosts"⟩).served
      = [Served.File "/etc/hosts"] ∧
    (safeStaticHandler "" ResponseWriter.new
        ⟨Header.empty, "10.0.0.1:5000", "/static/etc/hosts"⟩).status = none ∧
    resolve ["srv", "app"] "/etc/hosts" = some ["etc", "hosts"] ∧
    ¬ (["srv", "app"] <+: ["etc", "hosts"]) ∧
    (serveStaticFile "" ResponseWriter.new "favicon.ico").served
      = [Served.File "favicon.ico"] ∧
    resolve ["srv", "app"] "favicon.ico" = some ["srv", "app", "favicon.ico"] := by
  decide

end IpEcho
